import Mathlib

/-!
Verification of the zip-to-object archive reader core.

This development embeds the path/entry model, the directory-synthesis pass,
the per-archive content index and the archive cache of `src/zip_reader.ts`
(shared helpers also live in `src/zip_single_archive_reader.ts`) as
executable Lean definitions and proves the specified properties about them.

Modelling conventions:
- JavaScript strings are Lean `String`s; index arithmetic is done on the
  underlying `List Char` (`String.data`).
- A WHATWG `URL` is modelled by its components `protocol`, `hostname` and
  `pathname`; constructing `new URL("czf://host/fileName")` is modelled as
  pathname `"/" ++ fileName`.  Percent-encoding and dot-segment
  normalization performed by a platform URL parser are outside the model.
- A JavaScript `Map` is modelled as an insertion-ordered association list:
  `set` replaces in place or appends, iteration is list order.
- Machine integers: all times/TTLs are `Nat`; `Number.MAX_SAFE_INTEGER` is
  `2 ^ 53 - 1`.
- Asynchronous effects (byte-source reads, codec decoding) are modelled by a
  `World` of explicit result-returning functions; `zip.ZipReader` is lazy,
  so a reader value is modelled by the raw bytes it wraps, and the entry
  table only materializes when `getEntries` is consulted.
-/

namespace ZipToObject

/-- Directory entry type, from `DirectoryEntryType` ("file" | "directory"). -/
inductive DirectoryEntryType where
  | file
  | directory
deriving DecidableEq, Repr

/-- A raw zip-js entry: its filename, its directory flag, and the decompressed
bytes its `getData` method would produce (`none` models an entry object with
no `getData` method). -/
structure ZipEntry where
  filename : String
  directory : Bool
  getData : Option (List Nat)
deriving DecidableEq, Repr

/-- A URL, modelled by its components.  `protocol` includes the trailing
colon, as in the platform `URL` class. -/
structure URL where
  protocol : String
  hostname : String
  pathname : String
deriving DecidableEq, Repr

/-- The serialized form of a URL (`url.href`). -/
def URL.href (u : URL) : String :=
  u.protocol ++ "//" ++ u.hostname ++ u.pathname

/-- Extended zip entry (`ExtendedZipEntry` in the source): parent path, name,
virtual URL, optional backing raw entry, and entry type. -/
structure ExtendedZipEntry where
  parentPath : String
  name : String
  url : URL
  entry : Option ZipEntry
  type : DirectoryEntryType
deriving DecidableEq, Repr

/-- Public directory-entry shape (`DirectoryEntry`): name, type and URL only;
there is no field for the backing raw entry. -/
structure DirectoryEntry where
  name : String
  type : DirectoryEntryType
  url : URL
deriving DecidableEq, Repr

/-- Index of the last `'/'` in a character list, mirroring
`path.lastIndexOf("/")` (`none` models the return value `-1`). -/
def lastSlashIndex : List Char → Option Nat
  | [] => none
  | c :: rest =>
    match lastSlashIndex rest with
    | some i => some (i + 1)
    | none => if c = '/' then some 0 else none

/-- Whether a string starts with `"/"`, mirroring `path.startsWith("/")`. -/
def startsWithSlash (s : String) : Bool :=
  s.data.head? == some '/'

/-- Whether a string ends with `"/"`, mirroring `filename.endsWith("/")`. -/
def endsWithSlash (s : String) : Bool :=
  s.data.getLast? == some '/'

/-- `splitPath` from the source: split a path on its last slash into the
parent path (with a `"/"` prepended unless the path already starts with one)
and the name. -/
def splitPath (path : String) : String × String :=
  match lastSlashIndex path.data with
  | none => ("", path)
  | some i =>
    ((if startsWithSlash path then "" else "/") ++ String.mk (path.data.take i),
      String.mk (path.data.drop (i + 1)))

/-- `makeDirectoryEntryType` from the source. -/
def makeDirectoryEntryType (entry : ZipEntry) : DirectoryEntryType :=
  if entry.directory then DirectoryEntryType.directory else DirectoryEntryType.file

/-- `extendZipEntry` from the source: strip a trailing slash from directory
names, split into parent path and name, and mint the `czf:` virtual URL. -/
def extendZipEntry (hostname : String) (entry : ZipEntry) : ExtendedZipEntry :=
  let fileName :=
    if entry.directory && endsWithSlash entry.filename
    then String.mk entry.filename.data.dropLast
    else entry.filename
  let url : URL := ⟨"czf:", hostname, "/" ++ fileName⟩
  let pn := splitPath fileName
  { parentPath := pn.1, name := pn.2, url := url, entry := some entry,
    type := makeDirectoryEntryType entry }

/-- `makeDirectoryEntry` from the source: narrow an extended entry to the
public shape. -/
def makeDirectoryEntry (entry : ExtendedZipEntry) : DirectoryEntry :=
  { name := entry.name, type := entry.type, url := entry.url }

/-- Lookup in an insertion-ordered association list (JavaScript `Map.get`). -/
def alistGet {α : Type} : List (String × α) → String → Option α
  | [], _ => none
  | (k, v) :: rest, key => if k = key then some v else alistGet rest key

/-- Key-presence test (JavaScript `Map.has`). -/
def alistHas {α : Type} (m : List (String × α)) (key : String) : Bool :=
  (alistGet m key).isSome

/-- Insert-or-replace (JavaScript `Map.set`): an existing key keeps its
position, a new key is appended at the end. -/
def alistSet {α : Type} : List (String × α) → String → α → List (String × α)
  | [], key, v => [(key, v)]
  | (k, w) :: rest, key, v =>
    if k = key then (k, v) :: rest else (k, w) :: alistSet rest key v

/-- The values of an association list in iteration order
(JavaScript `Map.values`). -/
def alistValues {α : Type} (m : List (String × α)) : List α :=
  m.map Prod.snd

/-- Split a character list on `'/'`, mirroring `String.prototype.split("/")`
(the result is never empty; splitting the empty string yields one empty
part). -/
def splitOnSlashChars : List Char → List (List Char)
  | [] => [[]]
  | c :: rest =>
    match splitOnSlashChars rest with
    | [] => [[]]
    | g :: gs => if c = '/' then [] :: g :: gs else (c :: g) :: gs

/-- `path.split("/")` on strings. -/
def splitOnSlash (s : String) : List String :=
  (splitOnSlashChars s.data).map String.mk

/-- `parts.join("/")`, mirroring `Array.prototype.join("/")`. -/
def joinSlash : List String → String
  | [] => ""
  | [s] => s
  | s :: rest => s ++ "/" ++ joinSlash rest

/-- The inner `while` loop of `addMissingDirectoryEntries`: walk the parent
path elements upward, synthesizing a directory entry (with `entry := none`)
for each still-unknown ancestor.  `elems` is the current
`parentPathElements` array; the loop body recomputes `workingPath` as a join
of the elements, pops the last element, and inserts the synthetic entry under
the popped path unless a directory with that full path is already known. -/
def synthChainFuel (url : URL) :
    Nat → List String → List (String × ExtendedZipEntry) →
    List (String × ExtendedZipEntry)
  | 0, _, dirs => dirs
  | fuel + 1, elems, dirs =>
    if 1 < elems.length then
      let workingPath := joinSlash elems
      let newUrl : URL := { url with pathname := workingPath }
      let name := elems.getLast?.getD ""
      let rest := elems.dropLast
      let newEntry : ExtendedZipEntry :=
        { parentPath := joinSlash rest, name := name, url := newUrl,
          entry := none, type := DirectoryEntryType.directory }
      let dirs' :=
        if alistHas dirs newUrl.pathname then dirs
        else alistSet dirs newUrl.pathname newEntry
      synthChainFuel url fuel rest dirs'
    else dirs

/-- Entry point of the synthesis walk: the loop runs at most
`elems.length` times (each iteration pops one element), so that length is
passed as structural fuel. -/
def synthChain (url : URL) (elems : List String)
    (dirs : List (String × ExtendedZipEntry)) :
    List (String × ExtendedZipEntry) :=
  synthChainFuel url elems.length elems dirs

/-- The first loop of `addMissingDirectoryEntries`: collect the declared
directories, keyed by their full path `parentPath ++ "/" ++ name`. -/
def collectDirectories (contents : List ExtendedZipEntry) :
    List (String × ExtendedZipEntry) :=
  contents.foldl
    (fun dirs e =>
      if e.type = DirectoryEntryType.directory
      then alistSet dirs (e.parentPath ++ "/" ++ e.name) e
      else dirs)
    []

/-- The body of the second loop of `addMissingDirectoryEntries`: when an
entry has a non-empty parent path that is not yet a known directory, run the
synthesis walk over its parent path elements. -/
def addParents (dirs : List (String × ExtendedZipEntry))
    (e : ExtendedZipEntry) : List (String × ExtendedZipEntry) :=
  if e.parentPath ≠ "" ∧ alistHas dirs e.parentPath = false
  then synthChain e.url (splitOnSlash e.parentPath) dirs
  else dirs

/-- `addMissingDirectoryEntries` from the source: collect declared
directories, synthesize missing ancestors, and merge the directory map's
values with the non-directory entries. -/
def addMissingDirectoryEntries (contents : List ExtendedZipEntry) :
    List ExtendedZipEntry :=
  alistValues (contents.foldl addParents (collectDirectories contents)) ++
    contents.filter (fun e => e.type != DirectoryEntryType.directory)

/-- One step of `Map.groupBy`: append an item to its key's group, creating
the group at the end of the map when the key is new. -/
def mapAppendGroup {α : Type} : List (String × List α) → String → α →
    List (String × List α)
  | [], key, e => [(key, [e])]
  | (k, g) :: rest, key, e =>
    if k = key then (k, g ++ [e]) :: rest
    else (k, g) :: mapAppendGroup rest key e

/-- `Map.groupBy(entries, e => e.parentPath)` from the source: group the
fixed-up contents by parent path, preserving order. -/
def groupByParent (l : List ExtendedZipEntry) :
    List (String × List ExtendedZipEntry) :=
  l.foldl (fun m e => mapAppendGroup m e.parentPath e) []

/-- The full content-index construction used by `readDirectoryContents` /
`loadArchive`: extend every raw entry, synthesize missing directories, and
group by parent path. -/
def buildZipContents (uuid : String) (entries : List ZipEntry) :
    List (String × List ExtendedZipEntry) :=
  groupByParent (addMissingDirectoryEntries (entries.map (extendZipEntry uuid)))

/-- Error taxonomy of the reader: each constructor carries the exact message
thrown by the source. -/
inductive ZipError where
  | notFound (message : String)
  | internalConsistency (message : String)
  | couldNotFindZipFile (message : String)
  | loadError (message : String)
deriving DecidableEq, Repr

/-- The in-zip path a request URL denotes: the URL's pathname for `czf:`
URLs, the root (empty string) for source-location URLs. -/
def pathInZipFile (url : URL) : String :=
  if url.protocol = "czf:" then url.pathname else ""

/-- The directory-listing lookup shared by both readers: look up the path in
the content index; absent keys produce the NotFound error naming the path,
present keys produce the group narrowed to the public shape, in index
order. -/
def readDirectoryContents (contents : List (String × List ExtendedZipEntry))
    (path : String) : Except ZipError (List DirectoryEntry) :=
  match alistGet contents path with
  | none => Except.error (ZipError.notFound
      ("There is no directory at path \"" ++ path ++ "\" in zip file"))
  | some result => Except.ok (result.map makeDirectoryEntry)

/-- `readBinaryFromFile` (single-archive form): find the entry whose URL
serializes exactly like the requested URL inside its parent's group, then
fail for synthetic entries and entries without `getData`, otherwise return
the decompressed bytes. -/
def readBinaryFromFile (contents : List (String × List ExtendedZipEntry))
    (fileUrl : URL) : Except ZipError (List Nat) :=
  let parentPath := (splitPath fileUrl.pathname).1
  let directoryContents := (alistGet contents parentPath).getD []
  match directoryContents.find? (fun e => e.url.href == fileUrl.href) with
  | none => Except.error (ZipError.notFound
      ("There is no file at path \"" ++ fileUrl.pathname ++ "\" in zip file"))
  | some fileExtendedEntry =>
    match fileExtendedEntry.entry with
    | none => Except.error (ZipError.internalConsistency
        ("Internal error reading file at path \"" ++ fileUrl.pathname ++
          "\" in zip file -- attempting to load a synthetic entry"))
    | some raw =>
      match raw.getData with
      | none => Except.error (ZipError.internalConsistency
          ("Internal error reading file at path \"" ++ fileUrl.pathname ++
            "\" in zip file -- there is no getData method"))
      | some bytes => Except.ok bytes

/-- `Number.MAX_SAFE_INTEGER`. -/
def maxSafeInteger : Nat := 2 ^ 53 - 1

/-- The cached information about one zip file (`ZipFileInformation`).  The
`reader` field models the `zip.ZipReader` by the raw archive bytes it wraps
(entry-table parsing is lazy, happening only at `getEntries`). -/
structure ZipFileInformation where
  reader : Option (List Nat)
  uuid : String
  location : URL
  contents : Option (List (String × List ExtendedZipEntry))
  softExpires : Nat
  hardExpires : Nat
deriving DecidableEq, Repr

/-- The external collaborators: the byte-source reader
(`fileReader.readBinaryFromFile`) and the codec's entry-table parse
(`zip.ZipReader.getEntries`), each of which may fail. -/
structure World where
  readBinaryFromLocation : URL → Except String (List Nat)
  getEntries : List Nat → Except String (List ZipEntry)

/-- The mutable state of a `ZipReaderImpl`: the cache map (keyed by the
assigned uuid) and the pending eviction task, modelled by the absolute time
at which it will fire (`none` models `#evictorTimeoutId = 0`).  The class
maintains the invariant that each cache entry is stored under its own uuid;
in-place mutation of a found entry is modelled as `alistSet` at that uuid. -/
structure ReaderState where
  cache : List (String × ZipFileInformation)
  evictorDeadline : Option Nat
deriving DecidableEq, Repr

/-- `touchZipFileInformation`: refresh both expiration deadlines from the
current time, using `MAX_SAFE_INTEGER` for a zero TTL. -/
def touchZipFileInformation (softTTL hardTTL now : Nat)
    (info : ZipFileInformation) : ZipFileInformation :=
  { info with
    softExpires := if 0 < softTTL then now + softTTL else maxSafeInteger,
    hardExpires := if 0 < hardTTL then now + hardTTL else maxSafeInteger }

/-- `haveSoftEvictionCandidates`: some cache entry still holds a reader. -/
def haveSoftEvictionCandidates (cache : List (String × ZipFileInformation)) :
    Bool :=
  cache.any (fun kv => kv.2.reader.isSome)

/-- `haveHardEvictionCandidates`: the cache is non-empty. -/
def haveHardEvictionCandidates (cache : List (String × ZipFileInformation)) :
    Bool :=
  decide (0 < cache.length)

/-- `evictExpiredCacheEntries`: delete every hard-expired entry, then drop
the reader and contents of every soft-expired entry (resetting its soft
deadline to `MAX_SAFE_INTEGER`). -/
def evictExpiredCacheEntries (now : Nat)
    (cache : List (String × ZipFileInformation)) :
    List (String × ZipFileInformation) :=
  (cache.filter (fun kv => !decide (kv.2.hardExpires < now))).map
    (fun kv =>
      if kv.2.softExpires < now
      then (kv.1,
        { kv.2 with
          reader := none, contents := none, softExpires := maxSafeInteger })
      else kv)

/-- `lookupZipFileInformationByUuid`: direct map lookup. -/
def lookupZipFileInformationByUuid
    (cache : List (String × ZipFileInformation)) (uuid : String) :
    Option ZipFileInformation :=
  alistGet cache uuid

/-- `lookupZipFileInformationByLocation`: scan the live entries for one whose
source location serializes identically. -/
def lookupZipFileInformationByLocation
    (cache : List (String × ZipFileInformation)) (location : URL) :
    Option ZipFileInformation :=
  (cache.find? (fun kv => kv.2.location.href == location.href)).map Prod.snd

/-- The lookup dispatch at the start of `urlToZipFileInformation`: by uuid
for `czf:` URLs, by source location otherwise. -/
def lookupCacheEntry (cache : List (String × ZipFileInformation))
    (url : URL) : Option ZipFileInformation :=
  if url.protocol = "czf:" then lookupZipFileInformationByUuid cache url.hostname
  else lookupZipFileInformationByLocation cache url

/-- `scheduleEvictor`: do nothing when a task is already pending; otherwise
compute the delay (`softTTL` when positive with soft candidates, else
`hardTTL` with hard candidates, else no task) and arm the task for
`now + delay`. -/
def scheduleEvictor (softTTL hardTTL now : Nat) (st : ReaderState) :
    ReaderState :=
  if st.evictorDeadline.isSome then st
  else
    let delay :=
      if 0 < softTTL ∧ haveSoftEvictionCandidates st.cache = true then softTTL
      else if haveHardEvictionCandidates st.cache = true then hardTTL
      else 0
    if delay = 0 then st
    else { st with evictorDeadline := some (now + delay) }

/-- The eviction task body: sweep expired entries, clear the pending-task
marker, and reschedule. -/
def fireEvictor (softTTL hardTTL now : Nat) (st : ReaderState) :
    ReaderState :=
  scheduleEvictor softTTL hardTTL now
    { cache := evictExpiredCacheEntries now st.cache, evictorDeadline := none }

/-- `clear()`: drop all cache entries and cancel any pending eviction task. -/
def clearReader (_st : ReaderState) : ReaderState :=
  { cache := [], evictorDeadline := none }

/-- `loadZipFile`: read the raw bytes from the byte source (failures
propagate and create nothing), wrap them in a fresh reader under a fresh
uuid with unbuilt contents, and touch the deadlines. -/
def loadZipFile (softTTL hardTTL : Nat) (world : World) (now : Nat)
    (fresh : String) (path : URL) : Except String ZipFileInformation :=
  match world.readBinaryFromLocation path with
  | Except.error e => Except.error e
  | Except.ok bytes => Except.ok (touchZipFileInformation softTTL hardTTL now
      { reader := some bytes, uuid := fresh, location := path,
        contents := none, softExpires := 0, hardExpires := 0 })

/-- `loadAndCacheZipFile`: load, then store the handle under its uuid and arm
the evictor; a failed load leaves the state untouched. -/
def loadAndCacheZipFile (softTTL hardTTL : Nat) (world : World) (now : Nat)
    (fresh : String) (st : ReaderState) (path : URL) :
    ReaderState × Except String ZipFileInformation :=
  match loadZipFile softTTL hardTTL world now fresh path with
  | Except.error e => (st, Except.error e)
  | Except.ok info =>
    (scheduleEvictor softTTL hardTTL now
      { st with cache := alistSet st.cache info.uuid info },
      Except.ok info)

/-- `urlToZipFileInformation`: resolve a URL to a cached handle.  A hit with
a live reader is touched and returned; a hit whose reader is gone triggers a
transparent reload from the recorded location under the same uuid; a reload
failure deletes the stale handle and propagates the error. -/
def urlToZipFileInformation (softTTL hardTTL : Nat) (world : World)
    (now : Nat) (fresh : String) (st : ReaderState) (url : URL) :
    ReaderState × Except String (Option ZipFileInformation) :=
  match lookupCacheEntry st.cache url with
  | none => (st, Except.ok none)
  | some cacheEntry =>
    match cacheEntry.reader with
    | some _ =>
      let updated := touchZipFileInformation softTTL hardTTL now cacheEntry
      (scheduleEvictor softTTL hardTTL now
        { st with cache := alistSet st.cache updated.uuid updated },
        Except.ok (some updated))
    | none =>
      match loadZipFile softTTL hardTTL world now fresh cacheEntry.location with
      | Except.ok reloaded =>
        let updated := touchZipFileInformation softTTL hardTTL now
          { cacheEntry with
            reader := reloaded.reader, contents := reloaded.contents }
        (scheduleEvictor softTTL hardTTL now
          { st with cache := alistSet st.cache updated.uuid updated },
          Except.ok (some updated))
      | Except.error e =>
        ({ st with cache := st.cache.filter (fun kv => kv.1 != cacheEntry.uuid) },
          Except.error e)

/-- The tail of `ZipReaderImpl.readDirectoryContents` after a handle has been
resolved: check the reader, build and store the content index if it is still
unbuilt (a codec failure here propagates and leaves the handle cached with
unbuilt contents), then look up the requested path. -/
def readDirectoryContentsResolved (world : World) (st : ReaderState)
    (directoryUrl : URL) (info : ZipFileInformation) :
    ReaderState × Except ZipError (List DirectoryEntry) :=
  let pathInZip := pathInZipFile directoryUrl
  match info.reader with
  | none => (st, Except.error (ZipError.couldNotFindZipFile
      ("Could not find zip file at \"" ++ directoryUrl.href ++ "\"")))
  | some bytes =>
    match info.contents with
    | some contents => (st, readDirectoryContents contents pathInZip)
    | none =>
      match world.getEntries bytes with
      | Except.error e => (st, Except.error (ZipError.loadError e))
      | Except.ok entries =>
        let contents := buildZipContents info.uuid entries
        let newInfo : ZipFileInformation := { info with contents := some contents }
        let st2 : ReaderState :=
          { st with cache := alistSet st.cache info.uuid newInfo }
        (st2, readDirectoryContents contents pathInZip)

/-- `ZipReaderImpl.readDirectoryContents`: resolve the URL to a handle
(loading and caching on a miss), then serve the listing from the handle's
content index. -/
def readDirectoryContentsImpl (softTTL hardTTL : Nat) (world : World)
    (now : Nat) (fresh : String) (st : ReaderState) (directoryUrl : URL) :
    ReaderState × Except ZipError (List DirectoryEntry) :=
  match urlToZipFileInformation softTTL hardTTL world now fresh st directoryUrl with
  | (st1, Except.error e) => (st1, Except.error (ZipError.loadError e))
  | (st1, Except.ok (some info)) =>
    readDirectoryContentsResolved world st1 directoryUrl info
  | (st1, Except.ok none) =>
    match loadAndCacheZipFile softTTL hardTTL world now fresh st1 directoryUrl with
    | (st2, Except.error e) => (st2, Except.error (ZipError.loadError e))
    | (st2, Except.ok info) =>
      readDirectoryContentsResolved world st2 directoryUrl info

/-! ### String and association-list groundwork -/

/-- A string with no path separator in it. -/
def slashFree (s : String) : Prop := '/' ∉ s.data

instance (s : String) : Decidable (slashFree s) := by
  unfold slashFree
  infer_instance

theorem string_mk_append (a b : List Char) :
    String.mk a ++ String.mk b = String.mk (a ++ b) := rfl

theorem string_mk_inj {a b : List Char} :
    String.mk a = String.mk b ↔ a = b :=
  ⟨fun h => by injection h, fun h => by rw [h]⟩

theorem string_eq_data {s t : String} : s = t ↔ s.data = t.data :=
  ⟨fun h => by rw [h], fun h => by cases s; cases t; exact congrArg String.mk h⟩

theorem string_empty_append (s : String) : "" ++ s = s := by
  rw [string_eq_data, String.data_append]
  rfl

theorem string_append_assoc (a b c : String) :
    a ++ b ++ c = a ++ (b ++ c) := by
  rw [string_eq_data]
  simp [String.data_append]

theorem alistGet_set_self {α : Type} (m : List (String × α)) (k : String)
    (v : α) : alistGet (alistSet m k v) k = some v := by
  induction m with
  | nil => simp [alistSet, alistGet]
  | cons p rest ih =>
    obtain ⟨k', w⟩ := p
    by_cases h : k' = k
    · simp [alistSet, h, alistGet]
    · simp [alistSet, h, alistGet, ih]

theorem alistGet_set_ne {α : Type} (m : List (String × α)) (k k' : String)
    (v : α) (h : k ≠ k') : alistGet (alistSet m k v) k' = alistGet m k' := by
  induction m with
  | nil => simp [alistSet, alistGet, h]
  | cons p rest ih =>
    obtain ⟨k0, w⟩ := p
    by_cases h0 : k0 = k
    · subst h0
      simp [alistSet, alistGet, h]
    · simp [alistSet, h0, alistGet, ih]

theorem alistHas_set {α : Type} (m : List (String × α)) (k k' : String)
    (v : α) (h : alistHas m k' = true) :
    alistHas (alistSet m k v) k' = true := by
  by_cases hk : k = k'
  · subst hk
    simp [alistHas, alistGet_set_self]
  · simpa [alistHas, alistGet_set_ne m k k' v hk] using h

theorem alistGet_mem {α : Type} {m : List (String × α)} {k : String} {v : α}
    (h : alistGet m k = some v) : (k, v) ∈ m := by
  induction m with
  | nil => simp [alistGet] at h
  | cons p rest ih =>
    obtain ⟨k', w⟩ := p
    by_cases hk : k' = k
    · subst hk
      simp [alistGet] at h
      simp [h]
    · simp [alistGet, hk] at h
      simp [ih h]

theorem alistHas_get {α : Type} {m : List (String × α)} {k : String}
    (h : alistHas m k = true) : ∃ v, alistGet m k = some v := by
  unfold alistHas at h
  cases hv : alistGet m k with
  | none => rw [hv] at h; simp at h
  | some v => exact ⟨v, rfl⟩

theorem mem_alistSet {α : Type} {m : List (String × α)} {k : String} {v : α}
    {p : String × α} (h : p ∈ alistSet m k v) : p ∈ m ∨ p = (k, v) := by
  induction m with
  | nil => simp [alistSet] at h; simp [h]
  | cons q rest ih =>
    obtain ⟨k', w⟩ := q
    by_cases hk : k' = k
    · subst hk
      simp [alistSet] at h
      rcases h with h | h
      · right; simp [h]
      · left; simp [h]
    · simp [alistSet, hk] at h
      rcases h with h | h
      · left; simp [h]
      · rcases ih h with h' | h'
        · left; simp [h']
        · right; exact h'

theorem mem_of_alistHas_keys {α : Type} {m : List (String × α)} {k : String}
    {v : α} (h : (k, v) ∈ m) : alistHas m k = true := by
  induction m with
  | nil => simp at h
  | cons q rest ih =>
    obtain ⟨k', w⟩ := q
    simp at h
    rcases h with ⟨h1, h2⟩ | h
    · simp [alistHas, alistGet, h1]
    · by_cases hk : k' = k
      · simp [alistHas, alistGet, hk]
      · simpa [alistHas, alistGet, hk] using ih h

theorem alistSet_keys_nodup {α : Type} {m : List (String × α)} (k : String)
    (v : α) (h : (m.map Prod.fst).Nodup) :
    ((alistSet m k v).map Prod.fst).Nodup := by
  induction m with
  | nil => simp [alistSet]
  | cons q rest ih =>
    obtain ⟨k', w⟩ := q
    simp at h
    by_cases hk : k' = k
    · subst hk
      simp [alistSet]
      exact ⟨h.1, h.2⟩
    · simp [alistSet, hk]
      refine ⟨?_, ih h.2⟩
      intro x hx
      rcases mem_alistSet hx with hm | he
      · exact h.1 x hm
      · rw [Prod.mk.injEq] at he
        exact hk he.1

theorem mem_alistValues {α : Type} {m : List (String × α)} {v : α}
    (h : v ∈ alistValues m) : ∃ k, (k, v) ∈ m := by
  unfold alistValues at h
  obtain ⟨p, hp, he⟩ := List.mem_map.mp h
  exact ⟨p.1, by rwa [show (p.1, v) = p from by rw [← he]]⟩

theorem alistValues_mem {α : Type} {m : List (String × α)} {k : String}
    {v : α} (h : (k, v) ∈ m) : v ∈ alistValues m :=
  List.mem_map.mpr ⟨(k, v), h, rfl⟩

/-! ### Properties of `splitPath` and `extendZipEntry` -/

theorem lastSlashIndex_none {cs : List Char}
    (h : lastSlashIndex cs = none) : '/' ∉ cs := by
  induction cs with
  | nil => simp
  | cons c rest ih =>
    unfold lastSlashIndex at h
    cases hr : lastSlashIndex rest with
    | some i => rw [hr] at h; simp at h
    | none =>
      rw [hr] at h
      by_cases hc : c = '/'
      · simp [hc] at h
      · simp [hc] at h ⊢
        exact ⟨fun he => hc he.symm, ih hr⟩

theorem lastSlashIndex_spec {cs : List Char} {i : Nat}
    (h : lastSlashIndex cs = some i) :
    i < cs.length ∧ '/' ∉ cs.drop (i + 1) := by
  induction cs generalizing i with
  | nil => simp [lastSlashIndex] at h
  | cons c rest ih =>
    unfold lastSlashIndex at h
    cases hr : lastSlashIndex rest with
    | some j =>
      rw [hr] at h
      simp at h
      subst h
      obtain ⟨h1, h2⟩ := ih hr
      constructor
      · simpa using h1
      · simpa using h2
    | none =>
      rw [hr] at h
      by_cases hc : c = '/'
      · simp [hc] at h
        subst h
        refine ⟨by simp, ?_⟩
        simpa using lastSlashIndex_none hr
      · simp [hc] at h

theorem startsWithSlash_data {s : String} :
    startsWithSlash s = true ↔ ∃ cs, s.data = '/' :: cs := by
  unfold startsWithSlash
  cases hd : s.data with
  | nil => simp
  | cons c rest =>
    constructor
    · intro hb
      have hc : c = '/' := by simpa using hb
      exact ⟨rest, by rw [hc]⟩
    · rintro ⟨cs, hcs⟩
      injection hcs with h1 _
      simp [h1]

theorem string_slash_mk (x : List Char) :
    "/" ++ String.mk x = String.mk ('/' :: x) := rfl

theorem splitPath_parent_wf (p : String) :
    (splitPath p).1 = "" ∨ startsWithSlash (splitPath p).1 = true := by
  unfold splitPath
  cases hi : lastSlashIndex p.data with
  | none => left; rfl
  | some i =>
    by_cases hs : startsWithSlash p = true
    · obtain ⟨cs, hd⟩ := startsWithSlash_data.mp hs
      cases i with
      | zero =>
        left
        show (if startsWithSlash p = true then "" else "/") ++
          String.mk (List.take 0 p.data) = ""
        rw [if_pos hs, string_empty_append]
        rfl
      | succ j =>
        right
        show startsWithSlash ((if startsWithSlash p = true then "" else "/") ++
          String.mk (List.take (j + 1) p.data)) = true
        rw [if_pos hs, string_empty_append, hd, List.take_succ_cons]
        rw [startsWithSlash_data]
        exact ⟨List.take j cs, rfl⟩
    · right
      show startsWithSlash ((if startsWithSlash p = true then "" else "/") ++
        String.mk (List.take i p.data)) = true
      rw [if_neg hs, string_slash_mk]
      rw [startsWithSlash_data]
      exact ⟨p.data.take i, rfl⟩

theorem splitPath_name_slashFree (p : String) : slashFree (splitPath p).2 := by
  unfold splitPath slashFree
  cases hi : lastSlashIndex p.data with
  | none => exact lastSlashIndex_none hi
  | some i => exact (lastSlashIndex_spec hi).2

theorem splitPath_slash_append (f : String)
    (h : startsWithSlash f = false) :
    splitPath ("/" ++ f) = splitPath f := by
  have hdata : ("/" ++ f).data = '/' :: f.data := by
    rw [String.data_append]; rfl
  unfold splitPath
  have hslash : startsWithSlash ("/" ++ f) = true :=
    startsWithSlash_data.mpr ⟨f.data, hdata⟩
  cases hi : lastSlashIndex f.data with
  | none =>
    have h0 : lastSlashIndex ("/" ++ f).data = some 0 := by
      rw [hdata]
      unfold lastSlashIndex
      rw [hi]
      simp
    rw [h0]
    show ((if startsWithSlash ("/" ++ f) = true then "" else "/") ++
      String.mk (List.take 0 ("/" ++ f).data),
      String.mk (List.drop 1 ("/" ++ f).data)) = ("", f)
    rw [if_pos hslash, hdata, string_empty_append]
    rfl
  | some i =>
    have h0 : lastSlashIndex ("/" ++ f).data = some (i + 1) := by
      rw [hdata]
      unfold lastSlashIndex
      rw [hi]
    rw [h0]
    show ((if startsWithSlash ("/" ++ f) = true then "" else "/") ++
      String.mk (List.take (i + 1) ("/" ++ f).data),
      String.mk (List.drop (i + 1 + 1) ("/" ++ f).data)) =
      ((if startsWithSlash f = true then "" else "/") ++
        String.mk (List.take i f.data),
        String.mk (List.drop (i + 1) f.data))
    rw [if_pos hslash, if_neg (by simp [h]), hdata, string_empty_append,
      List.take_succ_cons, ← string_slash_mk]
    rfl

/-! ### Properties of `splitOnSlash` and `joinSlash` -/

theorem splitOnSlashChars_ne_nil (cs : List Char) :
    splitOnSlashChars cs ≠ [] := by
  cases cs with
  | nil => simp [splitOnSlashChars]
  | cons c rest =>
    unfold splitOnSlashChars
    cases splitOnSlashChars rest with
    | nil => simp
    | cons g gs =>
      by_cases hc : c = '/'
      · simp [hc]
      · simp [hc]

theorem splitOnSlashChars_cons_eq (c : Char) (rest g : List Char)
    (gs : List (List Char)) (hsr : splitOnSlashChars rest = g :: gs) :
    splitOnSlashChars (c :: rest) =
      if c = '/' then [] :: g :: gs else (c :: g) :: gs := by
  unfold splitOnSlashChars
  rw [hsr]

theorem splitOnSlashChars_slashFree {cs : List Char} :
    ∀ g ∈ splitOnSlashChars cs, '/' ∉ g := by
  induction cs with
  | nil => simp [splitOnSlashChars]
  | cons c rest ih =>
    cases hsr : splitOnSlashChars rest with
    | nil => exact absurd hsr (splitOnSlashChars_ne_nil rest)
    | cons g gs =>
      rw [splitOnSlashChars_cons_eq c rest g gs hsr]
      intro x hx
      by_cases hc : c = '/'
      · rw [if_pos hc] at hx
        simp at hx
        rcases hx with hx | hx | hx
        · simp [hx]
        · exact ih x (by rw [hsr]; simp [hx])
        · exact ih x (by rw [hsr]; simp [hx])
      · rw [if_neg hc] at hx
        simp at hx
        rcases hx with hx | hx
        · subst hx
          intro hmem
          simp at hmem
          rcases hmem with hmem | hmem
          · exact hc hmem.symm
          · exact ih g (by rw [hsr]; simp) hmem
        · exact ih x (by rw [hsr]; simp [hx])

theorem joinSlash_cons (s : String) {rest : List String} (h : rest ≠ []) :
    joinSlash (s :: rest) = s ++ "/" ++ joinSlash rest := by
  cases rest with
  | nil => exact absurd rfl h
  | cons t ts => rfl

theorem joinSlash_mk_split (cs : List Char) :
    joinSlash ((splitOnSlashChars cs).map String.mk) = String.mk cs := by
  induction cs with
  | nil => rfl
  | cons c rest ih =>
    cases hsr : splitOnSlashChars rest with
    | nil => exact absurd hsr (splitOnSlashChars_ne_nil rest)
    | cons g gs =>
      rw [splitOnSlashChars_cons_eq c rest g gs hsr]
      rw [hsr] at ih
      by_cases hc : c = '/'
      · rw [if_pos hc, hc]
        show joinSlash ("" :: (g :: gs).map String.mk) = String.mk ('/' :: rest)
        rw [joinSlash_cons "" (by simp), string_empty_append]
        rw [show joinSlash ((g :: gs).map String.mk) = String.mk rest from ih]
        exact string_slash_mk rest
      · rw [if_neg hc]
        show joinSlash (String.mk (c :: g) :: gs.map String.mk) =
          String.mk (c :: rest)
        cases gs with
        | nil =>
          have hg : String.mk g = String.mk rest := ih
          rw [string_mk_inj] at hg
          show String.mk (c :: g) = String.mk (c :: rest)
          rw [hg]
        | cons g2 gs' =>
          simp only [List.map_cons] at ih ⊢
          rw [joinSlash_cons _ (by simp)]
          rw [joinSlash_cons _ (by simp)] at ih
          rw [string_eq_data] at ih ⊢
          rw [String.data_append, String.data_append] at ih ⊢
          simp at ih ⊢
          exact ih

theorem joinSlash_splitOnSlash (s : String) :
    joinSlash (splitOnSlash s) = s := by
  unfold splitOnSlash
  rw [joinSlash_mk_split]

theorem splitOnSlash_slashFree {s : String} :
    ∀ t ∈ splitOnSlash s, slashFree t := by
  intro t ht
  unfold splitOnSlash at ht
  obtain ⟨g, hg, he⟩ := List.mem_map.mp ht
  rw [← he]
  exact splitOnSlashChars_slashFree g hg

theorem splitOnSlash_of_startsWithSlash {s : String}
    (h : startsWithSlash s = true) :
    ∃ rest, splitOnSlash s = "" :: rest ∧ rest ≠ [] := by
  obtain ⟨cs, hd⟩ := startsWithSlash_data.mp h
  unfold splitOnSlash
  rw [hd]
  unfold splitOnSlashChars
  cases hsr : splitOnSlashChars cs with
  | nil => exact absurd hsr (splitOnSlashChars_ne_nil cs)
  | cons g gs =>
    refine ⟨String.mk g :: gs.map String.mk, ?_, by simp⟩
    simp

theorem joinSlash_append_singleton {l : List String} (a : String)
    (h : l ≠ []) : joinSlash (l ++ [a]) = joinSlash l ++ "/" ++ a := by
  induction l with
  | nil => exact absurd rfl h
  | cons x l' ih =>
    cases hl : l' with
    | nil => rfl
    | cons y ys =>
      rw [← hl]
      have hne : l' ≠ [] := by rw [hl]; simp
      have hne2 : l' ++ [a] ≠ [] := by simp
      rw [List.cons_append, joinSlash_cons x hne2, joinSlash_cons x hne,
        ih hne]
      simp [string_append_assoc]

theorem extendZipEntry_wf (hostname : String) (e : ZipEntry) :
    ((extendZipEntry hostname e).parentPath = "" ∨
      startsWithSlash (extendZipEntry hostname e).parentPath = true) ∧
    slashFree (extendZipEntry hostname e).name := by
  simp only [extendZipEntry]
  exact ⟨splitPath_parent_wf _, splitPath_name_slashFree _⟩

/-! ### Properties of the directory-synthesis pass -/

theorem synthChain_stop (url : URL) (elems : List String)
    (dirs : List (String × ExtendedZipEntry)) (h : ¬ 1 < elems.length) :
    synthChain url elems dirs = dirs := by
  unfold synthChain
  cases hl : elems.length with
  | zero => rfl
  | succ n =>
    unfold synthChainFuel
    rw [if_neg h]

theorem synthChain_step (url : URL) (elems : List String)
    (dirs : List (String × ExtendedZipEntry)) (h : 1 < elems.length) :
    synthChain url elems dirs =
      synthChain url elems.dropLast
        (if alistHas dirs (joinSlash elems) then dirs
          else alistSet dirs (joinSlash elems)
            { parentPath := joinSlash elems.dropLast,
              name := elems.getLast?.getD "",
              url := { url with pathname := joinSlash elems },
              entry := none, type := DirectoryEntryType.directory }) := by
  unfold synthChain
  cases hl : elems.length with
  | zero => omega
  | succ n =>
    conv =>
      lhs
      unfold synthChainFuel
    rw [if_pos h]
    have hdl : elems.dropLast.length = n := by
      rw [List.length_dropLast, hl]
      omega
    rw [hdl]

theorem synthChain_has_mono (url : URL) {elems : List String}
    {dirs : List (String × ExtendedZipEntry)} {k : String}
    (h : alistHas dirs k = true) :
    alistHas (synthChain url elems dirs) k = true := by
  induction elems using List.reverseRecOn generalizing dirs with
  | nil => rwa [synthChain_stop url [] dirs (by simp)]
  | append_singleton l a ih =>
    cases l with
    | nil =>
      rwa [synthChain_stop url ([] ++ [a]) dirs (by simp)]
    | cons x xs =>
      have hlen : 1 < ((x :: xs) ++ [a]).length := by simp
      rw [synthChain_step url ((x :: xs) ++ [a]) dirs hlen,
        List.dropLast_concat]
      apply ih
      by_cases hK : alistHas dirs (joinSlash ((x :: xs) ++ [a])) = true
      · rw [if_pos hK]; exact h
      · rw [if_neg hK]; exact alistHas_set _ _ _ _ h

theorem synthChain_has_self (url : URL) {elems : List String}
    (dirs : List (String × ExtendedZipEntry)) (h : 1 < elems.length) :
    alistHas (synthChain url elems dirs) (joinSlash elems) = true := by
  rw [synthChain_step url elems dirs h]
  apply synthChain_has_mono
  by_cases hK : alistHas dirs (joinSlash elems) = true
  · rw [if_pos hK]; exact hK
  · rw [if_neg hK]
    unfold alistHas
    rw [alistGet_set_self]
    rfl

theorem synthChain_mem (url : URL) {elems : List String}
    {dirs : List (String × ExtendedZipEntry)}
    (hwf : ∀ x ∈ elems, slashFree x)
    (hhead : 1 < elems.length → elems.head? = some "")
    {p : String × ExtendedZipEntry} (hp : p ∈ synthChain url elems dirs) :
    p ∈ dirs ∨
      (p.2.entry = none ∧ p.2.type = DirectoryEntryType.directory ∧
        p.1 = p.2.parentPath ++ "/" ++ p.2.name ∧ slashFree p.2.name ∧
        (p.2.parentPath = "" ∨
          alistHas (synthChain url elems dirs) p.2.parentPath = true)) := by
  induction elems using List.reverseRecOn generalizing dirs with
  | nil =>
    rw [synthChain_stop url [] dirs (by simp)] at hp
    exact Or.inl hp
  | append_singleton l a ih =>
    cases l with
    | nil =>
      rw [synthChain_stop url ([] ++ [a]) dirs (by simp)] at hp
      exact Or.inl hp
    | cons x xs =>
      have hlen : 1 < ((x :: xs) ++ [a]).length := by simp
      rw [synthChain_step url ((x :: xs) ++ [a]) dirs hlen,
        List.dropLast_concat] at hp ⊢
      have hwf' : ∀ y ∈ x :: xs, slashFree y := by
        intro y hy
        apply hwf
        simp at hy ⊢
        tauto
      have hx : x = "" := by
        have := hhead hlen
        simpa using this
      have hhead' : 1 < (x :: xs).length → (x :: xs).head? = some "" := by
        intro _
        simp [hx]
      rcases ih hwf' hhead' hp with hmem | hsynth
      · by_cases hK :
          alistHas dirs (joinSlash ((x :: xs) ++ [a])) = true
        · rw [if_pos hK] at hmem
          exact Or.inl hmem
        · rw [if_neg hK] at hmem
          rcases mem_alistSet hmem with hold | hnew
          · exact Or.inl hold
          · right
            have hK1 : p.1 = joinSlash ((x :: xs) ++ [a]) := by rw [hnew]
            have hpar : p.2.parentPath = joinSlash (x :: xs) := by rw [hnew]
            have hname : p.2.name = a := by
              rw [hnew]
              show ((x :: xs) ++ [a]).getLast?.getD "" = a
              rw [List.getLast?_concat]
              rfl
            refine ⟨by rw [hnew], by rw [hnew], ?_, ?_, ?_⟩
            · rw [hK1, hpar, hname]
              exact joinSlash_append_singleton a (by simp)
            · rw [hname]
              exact hwf a (by simp)
            · rw [hpar]
              cases hxs : xs with
              | nil =>
                left
                rw [hx]
                rfl
              | cons y ys =>
                right
                apply synthChain_has_self
                simp
      · right
        exact hsynth

/-! ### Fold invariants -/

theorem foldl_invariant {α β : Type} (f : β → α → β) (Q : β → Prop) :
    ∀ (l : List α) (d : β), Q d →
      (∀ d' x, x ∈ l → Q d' → Q (f d' x)) → Q (l.foldl f d) := by
  intro l
  induction l with
  | nil => intro d h _; exact h
  | cons x xs ih =>
    intro d h hstep
    exact ih (f d x) (hstep d x (by simp) h)
      (fun d' y hy => hstep d' y (by simp [hy]))

theorem foldl_establish {α β : Type} (f : β → α → β) (Q : β → Prop) (e : α) :
    ∀ (l : List α) (d : β), e ∈ l →
      (∀ d' x, x ∈ l → Q d' → Q (f d' x)) →
      (∀ d', Q (f d' e)) → Q (l.foldl f d) := by
  intro l
  induction l with
  | nil => intro d h; simp at h
  | cons x xs ih =>
    intro d hmem hstep hest
    rcases List.mem_cons.mp hmem with he | he
    · subst he
      exact foldl_invariant f Q xs (f d e) (hest d)
        (fun d' y hy => hstep d' y (by simp [hy]))
    · exact ih (f d x) he (fun d' y hy => hstep d' y (by simp [hy])) hest

/-! ### Properties of `addParents` and `collectDirectories` -/

theorem addParents_has_mono {dirs : List (String × ExtendedZipEntry)}
    (e : ExtendedZipEntry) {k : String} (h : alistHas dirs k = true) :
    alistHas (addParents dirs e) k = true := by
  unfold addParents
  by_cases hc : e.parentPath ≠ "" ∧ alistHas dirs e.parentPath = false
  · rw [if_pos hc]
    exact synthChain_has_mono _ h
  · rw [if_neg hc]
    exact h

theorem addParents_has_self {dirs : List (String × ExtendedZipEntry)}
    {e : ExtendedZipEntry}
    (hwf : e.parentPath = "" ∨ startsWithSlash e.parentPath = true)
    (hne : e.parentPath ≠ "") :
    alistHas (addParents dirs e) e.parentPath = true := by
  unfold addParents
  by_cases hc : e.parentPath ≠ "" ∧ alistHas dirs e.parentPath = false
  · rw [if_pos hc]
    have hsw : startsWithSlash e.parentPath = true := hwf.resolve_left hne
    obtain ⟨rest, hsplit, hrest⟩ := splitOnSlash_of_startsWithSlash hsw
    have hlen : 1 < (splitOnSlash e.parentPath).length := by
      rw [hsplit]
      cases rest with
      | nil => exact absurd rfl hrest
      | cons r rs => simp
    have hh := synthChain_has_self e.url dirs hlen
    rwa [joinSlash_splitOnSlash] at hh
  · rw [if_neg hc]
    have hb : ¬ alistHas dirs e.parentPath = false := fun hb => hc ⟨hne, hb⟩
    simpa using hb

theorem addParents_mem {dirs : List (String × ExtendedZipEntry)}
    {e : ExtendedZipEntry}
    (hwf : e.parentPath = "" ∨ startsWithSlash e.parentPath = true)
    {p : String × ExtendedZipEntry} (hp : p ∈ addParents dirs e) :
    p ∈ dirs ∨
      (p.2.entry = none ∧ p.2.type = DirectoryEntryType.directory ∧
        p.1 = p.2.parentPath ++ "/" ++ p.2.name ∧ slashFree p.2.name ∧
        (p.2.parentPath = "" ∨
          alistHas (addParents dirs e) p.2.parentPath = true)) := by
  unfold addParents at hp ⊢
  by_cases hc : e.parentPath ≠ "" ∧ alistHas dirs e.parentPath = false
  · rw [if_pos hc] at hp ⊢
    have hsw : startsWithSlash e.parentPath = true :=
      hwf.resolve_left hc.1
    obtain ⟨rest, hsplit, hrest⟩ := splitOnSlash_of_startsWithSlash hsw
    refine synthChain_mem e.url (fun x hx => splitOnSlash_slashFree x hx)
      ?_ hp
    intro _
    rw [hsplit]
    rfl
  · rw [if_neg hc] at hp
    exact Or.inl hp

theorem collectDirectories_mem {contents : List ExtendedZipEntry}
    {p : String × ExtendedZipEntry} (hp : p ∈ collectDirectories contents) :
    p.2 ∈ contents ∧ p.2.type = DirectoryEntryType.directory ∧
      p.1 = p.2.parentPath ++ "/" ++ p.2.name := by
  have := foldl_invariant
    (fun dirs e =>
      if e.type = DirectoryEntryType.directory
      then alistSet dirs (e.parentPath ++ "/" ++ e.name) e
      else dirs)
    (fun dirs => ∀ q ∈ dirs,
      q.2 ∈ contents ∧ q.2.type = DirectoryEntryType.directory ∧
        q.1 = q.2.parentPath ++ "/" ++ q.2.name)
    contents [] (by simp) ?_
  · unfold collectDirectories at hp
    exact this p hp
  · intro d' x hx hq q hmem
    dsimp only [] at hmem
    by_cases ht : x.type = DirectoryEntryType.directory
    · rw [if_pos ht] at hmem
      rcases mem_alistSet hmem with hold | hnew
      · exact hq q hold
      · subst hnew
        exact ⟨hx, ht, rfl⟩
    · rw [if_neg ht] at hmem
      exact hq q hmem

theorem collectDirectories_has {contents : List ExtendedZipEntry}
    {e : ExtendedZipEntry} (he : e ∈ contents)
    (hd : e.type = DirectoryEntryType.directory) :
    alistHas (collectDirectories contents)
      (e.parentPath ++ "/" ++ e.name) = true := by
  unfold collectDirectories
  apply foldl_establish _
    (fun dirs => alistHas dirs (e.parentPath ++ "/" ++ e.name) = true)
    e contents [] he
  · intro d' x _ hq
    dsimp only []
    by_cases ht : x.type = DirectoryEntryType.directory
    · rw [if_pos ht]
      exact alistHas_set _ _ _ _ hq
    · rw [if_neg ht]
      exact hq
  · intro d'
    dsimp only []
    rw [if_pos hd]
    unfold alistHas
    rw [alistGet_set_self]
    rfl

/-! ### The final directory map of `addMissingDirectoryEntries` -/

theorem finalDirs_inv {contents : List ExtendedZipEntry}
    (hwf : ∀ e ∈ contents,
      (e.parentPath = "" ∨ startsWithSlash e.parentPath = true) ∧
        slashFree e.name) :
    ∀ p ∈ contents.foldl addParents (collectDirectories contents),
      p.2.type = DirectoryEntryType.directory ∧
        p.1 = p.2.parentPath ++ "/" ++ p.2.name ∧ slashFree p.2.name ∧
        (p.2 ∈ contents ∨ p.2.entry = none) := by
  apply foldl_invariant addParents
    (fun dirs => ∀ p ∈ dirs,
      p.2.type = DirectoryEntryType.directory ∧
        p.1 = p.2.parentPath ++ "/" ++ p.2.name ∧ slashFree p.2.name ∧
        (p.2 ∈ contents ∨ p.2.entry = none))
  · intro p hp
    obtain ⟨hmem, htype, hkey⟩ := collectDirectories_mem hp
    exact ⟨htype, hkey, (hwf p.2 hmem).2, Or.inl hmem⟩
  · intro d' x hx hq p hp
    rcases addParents_mem (hwf x hx).1 hp with hold | hsynth
    · exact hq p hold
    · exact ⟨hsynth.2.1, hsynth.2.2.1, hsynth.2.2.2.1, Or.inr hsynth.1⟩

theorem finalDirs_parent_has {contents : List ExtendedZipEntry}
    (hwf : ∀ e ∈ contents,
      (e.parentPath = "" ∨ startsWithSlash e.parentPath = true) ∧
        slashFree e.name) :
    ∀ p ∈ contents.foldl addParents (collectDirectories contents),
      p.2 ∈ contents ∨ p.2.parentPath = "" ∨
        alistHas (contents.foldl addParents (collectDirectories contents))
          p.2.parentPath = true := by
  apply foldl_invariant addParents
    (fun dirs => ∀ p ∈ dirs,
      p.2 ∈ contents ∨ p.2.parentPath = "" ∨
        alistHas dirs p.2.parentPath = true)
  · intro p hp
    exact Or.inl (collectDirectories_mem hp).1
  · intro d' x hx hq p hp
    rcases addParents_mem (hwf x hx).1 hp with hold | hsynth
    · rcases hq p hold with hm | hm | hm
      · exact Or.inl hm
      · exact Or.inr (Or.inl hm)
      · exact Or.inr (Or.inr (addParents_has_mono x hm))
    · exact Or.inr hsynth.2.2.2.2

theorem contents_parent_has {contents : List ExtendedZipEntry}
    (hwf : ∀ e ∈ contents,
      (e.parentPath = "" ∨ startsWithSlash e.parentPath = true) ∧
        slashFree e.name)
    {e : ExtendedZipEntry} (he : e ∈ contents) (hne : e.parentPath ≠ "") :
    alistHas (contents.foldl addParents (collectDirectories contents))
      e.parentPath = true := by
  apply foldl_establish addParents
    (fun dirs => alistHas dirs e.parentPath = true) e contents _ he
  · intro d' x _ hq
    exact addParents_has_mono x hq
  · intro d'
    exact addParents_has_self (hwf e he).1 hne

/-- C1: after `addMissingDirectoryEntries`, run over the extended entries of
any raw entry list, every result entry with a non-empty parent path has a
directory entry in the result whose full path equals that parent path, and
every result entry that was not in the input (i.e. every synthesized
directory) has no backing raw entry and kind directory. -/
theorem addMissingDirectoryEntries_parent_chain (uuid : String)
    (raws : List ZipEntry) :
    (∀ e ∈ addMissingDirectoryEntries (raws.map (extendZipEntry uuid)),
      e.parentPath ≠ "" →
        ∃ d ∈ addMissingDirectoryEntries (raws.map (extendZipEntry uuid)),
          d.type = DirectoryEntryType.directory ∧
            d.parentPath ++ "/" ++ d.name = e.parentPath) ∧
    (∀ e ∈ addMissingDirectoryEntries (raws.map (extendZipEntry uuid)),
      e ∉ raws.map (extendZipEntry uuid) →
        e.entry = none ∧ e.type = DirectoryEntryType.directory) := by
  have hwf : ∀ e ∈ raws.map (extendZipEntry uuid),
      (e.parentPath = "" ∨ startsWithSlash e.parentPath = true) ∧
        slashFree e.name := by
    intro e he
    obtain ⟨r, _, hre⟩ := List.mem_map.mp he
    rw [← hre]
    exact extendZipEntry_wf uuid r
  have hfromhas : ∀ k,
      alistHas ((raws.map (extendZipEntry uuid)).foldl addParents
        (collectDirectories (raws.map (extendZipEntry uuid)))) k = true →
      ∃ d ∈ addMissingDirectoryEntries (raws.map (extendZipEntry uuid)),
        d.type = DirectoryEntryType.directory ∧
          d.parentPath ++ "/" ++ d.name = k := by
    intro k hk
    obtain ⟨v, hv⟩ := alistHas_get hk
    have hmem := alistGet_mem hv
    obtain ⟨htype, hkey, _, _⟩ := finalDirs_inv hwf (k, v) hmem
    refine ⟨v, ?_, htype, hkey.symm⟩
    unfold addMissingDirectoryEntries
    exact List.mem_append.mpr (Or.inl (alistValues_mem hmem))
  constructor
  · intro e he hne
    unfold addMissingDirectoryEntries at he
    rcases List.mem_append.mp he with hv | hf
    · obtain ⟨k, hk⟩ := mem_alistValues hv
      rcases finalDirs_parent_has hwf (k, e) hk with hm | hm | hm
      · exact hfromhas _ (contents_parent_has hwf hm hne)
      · exact absurd hm hne
      · exact hfromhas _ hm
    · have hme : e ∈ raws.map (extendZipEntry uuid) :=
        (List.mem_filter.mp hf).1
      exact hfromhas _ (contents_parent_has hwf hme hne)
  · intro e he hnot
    unfold addMissingDirectoryEntries at he
    rcases List.mem_append.mp he with hv | hf
    · obtain ⟨k, hk⟩ := mem_alistValues hv
      obtain ⟨htype, _, _, hin⟩ := finalDirs_inv hwf (k, e) hk
      rcases hin with hin | hin
      · exact absurd hin hnot
      · exact ⟨hin, htype⟩
    · exact absurd (List.mem_filter.mp hf).1 hnot

/-- Witness for C1: in an archive with the single file `a/b`, the result
contains a directory whose full path is the file's parent path `/a`. -/
theorem addMissingDirectoryEntries_parent_chain_witness :
    ∃ d ∈ addMissingDirectoryEntries
      ([({ filename := "a/b", directory := false, getData := none } :
          ZipEntry)].map (extendZipEntry "u")),
      d.type = DirectoryEntryType.directory ∧
        d.parentPath ++ "/" ++ d.name =
          (extendZipEntry "u"
            { filename := "a/b", directory := false,
              getData := none }).parentPath :=
  (addMissingDirectoryEntries_parent_chain "u"
    [{ filename := "a/b", directory := false, getData := none }]).1
    _ (by decide) (by decide)

/-! ### Characterization of the grouped content index -/

theorem alistGet_mapAppendGroup {α : Type} (m : List (String × List α))
    (k' k : String) (e : α) :
    alistGet (mapAppendGroup m k' e) k =
      if k = k' then some ((alistGet m k').getD [] ++ [e])
      else alistGet m k := by
  induction m with
  | nil =>
    by_cases hk : k = k'
    · subst hk
      simp [mapAppendGroup, alistGet]
    · have hk2 : ¬ k' = k := fun h => hk h.symm
      simp [mapAppendGroup, alistGet, hk, hk2]
  | cons q rest ih =>
    obtain ⟨k0, g⟩ := q
    by_cases h0 : k0 = k'
    · subst h0
      by_cases hk : k = k0
      · subst hk
        simp [mapAppendGroup, alistGet]
      · have hk2 : ¬ k0 = k := fun h => hk h.symm
        simp [mapAppendGroup, alistGet, hk, hk2]
    · by_cases hk : k0 = k
      · subst hk
        simp [mapAppendGroup, alistGet, h0]
      · simp [mapAppendGroup, alistGet, h0, hk, ih]

theorem alistGet_groupAux (k : String) :
    ∀ (l : List ExtendedZipEntry) (m : List (String × List ExtendedZipEntry)),
      alistGet (l.foldl (fun m' e => mapAppendGroup m' e.parentPath e) m) k =
        match alistGet m k with
        | some g => some (g ++ l.filter (fun e => e.parentPath == k))
        | none =>
          if l.filter (fun e => e.parentPath == k) = [] then none
          else some (l.filter (fun e => e.parentPath == k)) := by
  intro l
  induction l with
  | nil =>
    intro m
    cases hm : alistGet m k <;> simp [hm]
  | cons e rest ih =>
    intro m
    rw [List.foldl_cons, ih (mapAppendGroup m e.parentPath e),
      alistGet_mapAppendGroup]
    by_cases hk : k = e.parentPath
    · rw [if_pos hk]
      have hpred : (e.parentPath == k) = true := by
        rw [hk]
        exact beq_self_eq_true _
      cases hm : alistGet m k with
      | some g =>
        rw [hk] at hm
        simp [hm, List.filter_cons, hpred]
      | none =>
        rw [hk] at hm
        simp [hm, List.filter_cons, hpred]
    · rw [if_neg hk]
      have hpred : (e.parentPath == k) = false := by
        rw [beq_eq_false_iff_ne]
        exact fun h => hk h.symm
      cases hm : alistGet m k with
      | some g => simp [hm, List.filter_cons, hpred]
      | none => simp [hm, List.filter_cons, hpred]

theorem alistGet_groupByParent (l : List ExtendedZipEntry) (k : String) :
    alistGet (groupByParent l) k =
      if l.filter (fun e => e.parentPath == k) = [] then none
      else some (l.filter (fun e => e.parentPath == k)) := by
  unfold groupByParent
  rw [alistGet_groupAux k l []]
  rfl

/-! ### Uniqueness of directory names at the root -/

theorem synthChain_keys_nodup (url : URL) {elems : List String}
    {dirs : List (String × ExtendedZipEntry)}
    (h : (dirs.map Prod.fst).Nodup) :
    ((synthChain url elems dirs).map Prod.fst).Nodup := by
  induction elems using List.reverseRecOn generalizing dirs with
  | nil => rwa [synthChain_stop url [] dirs (by simp)]
  | append_singleton l a ih =>
    cases l with
    | nil => rwa [synthChain_stop url ([] ++ [a]) dirs (by simp)]
    | cons x xs =>
      rw [synthChain_step url ((x :: xs) ++ [a]) dirs (by simp),
        List.dropLast_concat]
      apply ih
      by_cases hK : alistHas dirs (joinSlash ((x :: xs) ++ [a])) = true
      · rwa [if_pos hK]
      · rw [if_neg hK]
        exact alistSet_keys_nodup _ _ h

theorem addParents_keys_nodup {dirs : List (String × ExtendedZipEntry)}
    (e : ExtendedZipEntry) (h : (dirs.map Prod.fst).Nodup) :
    ((addParents dirs e).map Prod.fst).Nodup := by
  unfold addParents
  by_cases hc : e.parentPath ≠ "" ∧ alistHas dirs e.parentPath = false
  · rw [if_pos hc]
    exact synthChain_keys_nodup _ h
  · rwa [if_neg hc]

theorem collectDirectories_keys_nodup (contents : List ExtendedZipEntry) :
    ((collectDirectories contents).map Prod.fst).Nodup := by
  unfold collectDirectories
  have h := foldl_invariant
    (fun (dirs : List (String × ExtendedZipEntry)) (e : ExtendedZipEntry) =>
      if e.type = DirectoryEntryType.directory
      then alistSet dirs (e.parentPath ++ "/" ++ e.name) e
      else dirs)
    (fun dirs => (dirs.map Prod.fst).Nodup)
    contents [] (by simp) ?_
  · exact h
  · intro d' x _ hq
    dsimp only []
    by_cases ht : x.type = DirectoryEntryType.directory
    · rw [if_pos ht]
      exact alistSet_keys_nodup _ _ hq
    · rwa [if_neg ht]

theorem finalDirs_keys_nodup (contents : List ExtendedZipEntry) :
    (((contents.foldl addParents (collectDirectories contents)).map
      Prod.fst)).Nodup := by
  apply foldl_invariant addParents (fun dirs => (dirs.map Prod.fst).Nodup)
  · exact collectDirectories_keys_nodup contents
  · intro d' x _ hq
    exact addParents_keys_nodup x hq

theorem finalDirs_has_of_collect {contents : List ExtendedZipEntry}
    {k : String} (h : alistHas (collectDirectories contents) k = true) :
    alistHas (contents.foldl addParents (collectDirectories contents))
      k = true := by
  apply foldl_invariant addParents (fun dirs => alistHas dirs k = true)
  · exact h
  · intro d' x _ hq
    exact addParents_has_mono x hq

theorem append_slash_inj_chars :
    ∀ (p1 : List Char) {n1 p2 n2 : List Char}, '/' ∉ n1 → '/' ∉ n2 →
      p1 ++ '/' :: n1 = p2 ++ '/' :: n2 → p1 = p2 ∧ n1 = n2 := by
  intro p1
  induction p1 with
  | nil =>
    intro n1 p2 n2 h1 h2 he
    cases p2 with
    | nil =>
      simp at he
      exact ⟨rfl, he⟩
    | cons c p2' =>
      simp at he
      exfalso
      apply h1
      rw [he.2]
      simp
  | cons c p1' ih =>
    intro n1 p2 n2 h1 h2 he
    cases p2 with
    | nil =>
      simp at he
      exfalso
      apply h2
      rw [← he.2]
      simp
    | cons c2 p2' =>
      simp at he
      obtain ⟨hc, he'⟩ := he
      obtain ⟨hp, hn⟩ := ih h1 h2 he'
      exact ⟨by rw [hc, hp], hn⟩

theorem append_slash_inj {p1 n1 p2 n2 : String} (h1 : slashFree n1)
    (h2 : slashFree n2) (h : p1 ++ "/" ++ n1 = p2 ++ "/" ++ n2) :
    p1 = p2 ∧ n1 = n2 := by
  rw [string_eq_data] at h
  rw [String.data_append, String.data_append, String.data_append,
    String.data_append] at h
  rw [show ("/" : String).data = ['/'] from rfl] at h
  rw [List.append_assoc, List.append_assoc] at h
  have := append_slash_inj_chars p1.data h1 h2 (by simpa using h)
  exact ⟨string_eq_data.mpr this.1, string_eq_data.mpr this.2⟩

theorem values_root_names_nodup {m : List (String × ExtendedZipEntry)}
    (hknd : (m.map Prod.fst).Nodup)
    (hinv : ∀ p ∈ m, p.1 = p.2.parentPath ++ "/" ++ p.2.name) :
    (((alistValues m).filter (fun e => e.parentPath == "")).map
      ExtendedZipEntry.name).Nodup := by
  induction m with
  | nil => simp [alistValues]
  | cons q rest ih =>
    simp only [List.map_cons, List.nodup_cons] at hknd
    have hrest := ih hknd.2 (fun p hp => hinv p (by simp [hp]))
    unfold alistValues at hrest ⊢
    rw [List.map_cons]
    by_cases hv : (q.2.parentPath == "") = true
    · have hfc : List.filter (fun e => e.parentPath == "")
          (q.2 :: List.map Prod.snd rest) =
          q.2 :: List.filter (fun e => e.parentPath == "")
            (List.map Prod.snd rest) := by
        rw [List.filter_cons]
        simp [hv]
      rw [hfc, List.map_cons, List.nodup_cons]
      refine ⟨?_, hrest⟩
      intro hmem
      obtain ⟨v', hv', hname⟩ := List.mem_map.mp hmem
      have hv'mem := (List.mem_filter.mp hv').1
      have hv'root := (List.mem_filter.mp hv').2
      obtain ⟨k', hk'⟩ := mem_alistValues hv'mem
      have hkey := hinv q (by simp)
      have hkey2 : k' = v'.parentPath ++ "/" ++ v'.name :=
        hinv (k', v') (by simp [hk'])
      have hk'q : k' = q.1 := by
        rw [hkey, hkey2,
          show v'.parentPath = "" from by simpa using hv'root,
          show q.2.parentPath = "" from by simpa using hv, hname]
      apply hknd.1
      rw [← hk'q]
      exact List.mem_map.mpr ⟨(k', v'), hk', rfl⟩
    · have hfc : List.filter (fun e => e.parentPath == "")
          (q.2 :: List.map Prod.snd rest) =
          List.filter (fun e => e.parentPath == "")
            (List.map Prod.snd rest) := by
        rw [List.filter_cons]
        simp [hv]
      rw [hfc]
      exact hrest

/-- C4: for a loaded archive, `readDirectoryContents` (listDirectory) fails
with the NotFound error naming the requested path exactly when the path is
absent as a grouping key of the content index -- equivalently, when no entry
of the fixed-up contents has that parent path (in particular a declared
directory with no children never appears as a key) -- and otherwise returns
the group narrowed by `makeDirectoryEntry` to the public shape, in index
order. -/
theorem readDirectoryContents_spec (uuid : String) (raws : List ZipEntry)
    (p : String) :
    (readDirectoryContents (buildZipContents uuid raws) p =
        Except.error (ZipError.notFound
          ("There is no directory at path \"" ++ p ++ "\" in zip file")) ↔
      ∀ e ∈ addMissingDirectoryEntries (raws.map (extendZipEntry uuid)),
        e.parentPath ≠ p) ∧
    (alistGet (buildZipContents uuid raws) p = none ↔
      ∀ e ∈ addMissingDirectoryEntries (raws.map (extendZipEntry uuid)),
        e.parentPath ≠ p) ∧
    (∀ l, readDirectoryContents (buildZipContents uuid raws) p =
        Except.ok l →
      l = ((addMissingDirectoryEntries
        (raws.map (extendZipEntry uuid))).filter
          (fun e => e.parentPath == p)).map makeDirectoryEntry) := by
  have hiff : ((addMissingDirectoryEntries
      (raws.map (extendZipEntry uuid))).filter
        (fun e => e.parentPath == p) = []) ↔
      (∀ e ∈ addMissingDirectoryEntries (raws.map (extendZipEntry uuid)),
        e.parentPath ≠ p) := by
    rw [List.filter_eq_nil_iff]
    constructor
    · intro h e he
      simpa using h e he
    · intro h e he
      simpa using h e he
  by_cases hc : (addMissingDirectoryEntries
      (raws.map (extendZipEntry uuid))).filter
        (fun e => e.parentPath == p) = []
  · have hnone : alistGet (buildZipContents uuid raws) p = none := by
      unfold buildZipContents
      rw [alistGet_groupByParent, if_pos hc]
    have herr : readDirectoryContents (buildZipContents uuid raws) p =
        Except.error (ZipError.notFound
          ("There is no directory at path \"" ++ p ++ "\" in zip file")) := by
      unfold readDirectoryContents
      rw [hnone]
    refine ⟨⟨fun _ => hiff.mp hc, fun _ => herr⟩,
      ⟨fun _ => hiff.mp hc, fun _ => hnone⟩, ?_⟩
    intro l hl
    rw [herr] at hl
    exact absurd hl (by simp)
  · have hsome : alistGet (buildZipContents uuid raws) p =
        some ((addMissingDirectoryEntries
          (raws.map (extendZipEntry uuid))).filter
            (fun e => e.parentPath == p)) := by
      unfold buildZipContents
      rw [alistGet_groupByParent, if_neg hc]
    have hok : readDirectoryContents (buildZipContents uuid raws) p =
        Except.ok (((addMissingDirectoryEntries
          (raws.map (extendZipEntry uuid))).filter
            (fun e => e.parentPath == p)).map makeDirectoryEntry) := by
      unfold readDirectoryContents
      rw [hsome]
    have hnall : ¬ (∀ e ∈ addMissingDirectoryEntries
        (raws.map (extendZipEntry uuid)), e.parentPath ≠ p) :=
      fun hall => hc (hiff.mpr hall)
    refine ⟨⟨fun he => ?_, fun hall => absurd hall hnall⟩,
      ⟨fun hn => ?_, fun hall => absurd hall hnall⟩, ?_⟩
    · rw [hok] at he
      exact absurd he (by simp)
    · rw [hsome] at hn
      exact absurd hn (by simp)
    · intro l hl
      rw [hok] at hl
      injection hl with h
      exact h.symm

/-- Witness for C4: in an archive declaring the childless directory `a/` and
the file `b.txt`, the key `/a` is absent from the content index, so listing
`/a` is NotFound. -/
theorem readDirectoryContents_spec_witness :
    alistGet (buildZipContents "u"
      [{ filename := "a/", directory := true, getData := none },
        { filename := "b.txt", directory := false, getData := some [1] }])
      "/a" = none :=
  (readDirectoryContents_spec "u"
    [{ filename := "a/", directory := true, getData := none },
      { filename := "b.txt", directory := false, getData := some [1] }]
    "/a").2.1.mpr (by decide)

/-- Counterexample to C2 as stated: an archive declaring the file name `x`
twice lists the root with the name `x` twice -- declared top-level file
entries are passed through without deduplication, so "each exactly once"
fails. -/
theorem root_listing_duplicate_name :
    (readDirectoryContents (buildZipContents "u"
      [{ filename := "x", directory := false, getData := some [] },
        { filename := "x", directory := false, getData := some [] }])
      "").map (fun l => (l.map DirectoryEntry.name).count "x") =
      Except.ok 2 := rfl

/-- C2 (amended): provided the declared top-level file names are pairwise
distinct and no top-level directory of the result shares its name with a
top-level file, the root group of the content index is exactly the
root-level result entries, its names are pairwise distinct, and it contains
the name of every root-level result entry (declared or synthesized) and of
every declared entry whose parent path is the root. -/
theorem root_listing_names (uuid : String) (raws : List ZipEntry)
    (h1 : (((raws.map (extendZipEntry uuid)).filter
      (fun e => e.parentPath == "" &&
        e.type != DirectoryEntryType.directory)).map
      ExtendedZipEntry.name).Nodup)
    (h2 : ∀ d ∈ addMissingDirectoryEntries (raws.map (extendZipEntry uuid)),
      d.type = DirectoryEntryType.directory → d.parentPath = "" →
      ∀ f ∈ addMissingDirectoryEntries (raws.map (extendZipEntry uuid)),
        f.type ≠ DirectoryEntryType.directory → f.parentPath = "" →
        d.name ≠ f.name) :
    (alistGet (buildZipContents uuid raws) "" =
      (if (addMissingDirectoryEntries
          (raws.map (extendZipEntry uuid))).filter
            (fun e => e.parentPath == "") = []
        then none
        else some ((addMissingDirectoryEntries
          (raws.map (extendZipEntry uuid))).filter
            (fun e => e.parentPath == "")))) ∧
    ((((addMissingDirectoryEntries (raws.map (extendZipEntry uuid))).filter
      (fun e => e.parentPath == "")).map ExtendedZipEntry.name).Nodup) ∧
    (∀ e ∈ addMissingDirectoryEntries (raws.map (extendZipEntry uuid)),
      e.parentPath = "" →
        e.name ∈ ((addMissingDirectoryEntries
          (raws.map (extendZipEntry uuid))).filter
            (fun e => e.parentPath == "")).map ExtendedZipEntry.name) ∧
    (∀ r ∈ raws, (extendZipEntry uuid r).parentPath = "" →
      (extendZipEntry uuid r).name ∈
        ((addMissingDirectoryEntries
          (raws.map (extendZipEntry uuid))).filter
            (fun e => e.parentPath == "")).map ExtendedZipEntry.name) := by
  have hwf : ∀ e ∈ raws.map (extendZipEntry uuid),
      (e.parentPath = "" ∨ startsWithSlash e.parentPath = true) ∧
        slashFree e.name := by
    intro e he
    obtain ⟨r, _, hre⟩ := List.mem_map.mp he
    rw [← hre]
    exact extendZipEntry_wf uuid r
  refine ⟨?_, ?_, ?_, ?_⟩
  · unfold buildZipContents
    exact alistGet_groupByParent _ ""
  · show ((((alistValues ((raws.map (extendZipEntry uuid)).foldl addParents
        (collectDirectories (raws.map (extendZipEntry uuid)))) ++
        (raws.map (extendZipEntry uuid)).filter
          (fun e => e.type != DirectoryEntryType.directory)).filter
        (fun e => e.parentPath == "")).map ExtendedZipEntry.name)).Nodup
    rw [List.filter_append, List.map_append, List.nodup_append]
    refine ⟨?_, ?_, ?_⟩
    · exact values_root_names_nodup
        (finalDirs_keys_nodup (raws.map (extendZipEntry uuid)))
        (fun p hp => (finalDirs_inv hwf p hp).2.1)
    · rw [List.filter_filter]
      exact h1
    · intro n hn hn2
      obtain ⟨d, hd, hdname⟩ := List.mem_map.mp hn
      obtain ⟨f, hf, hfname⟩ := List.mem_map.mp hn2
      have hdval := (List.mem_filter.mp hd).1
      have hdroot : d.parentPath = "" := by
        simpa using (List.mem_filter.mp hd).2
      have hfval := (List.mem_filter.mp hf).1
      have hfroot : f.parentPath = "" := by
        simpa using (List.mem_filter.mp hf).2
      obtain ⟨k, hk⟩ := mem_alistValues hdval
      have hdtype := (finalDirs_inv hwf (k, d) hk).1
      have hftype : f.type ≠ DirectoryEntryType.directory := by
        simpa using (List.mem_filter.mp hfval).2
      have hdres : d ∈ addMissingDirectoryEntries
          (raws.map (extendZipEntry uuid)) := by
        unfold addMissingDirectoryEntries
        exact List.mem_append.mpr (Or.inl hdval)
      have hfres : f ∈ addMissingDirectoryEntries
          (raws.map (extendZipEntry uuid)) := by
        unfold addMissingDirectoryEntries
        exact List.mem_append.mpr (Or.inr hfval)
      exact h2 d hdres hdtype hdroot f hfres hftype hfroot
        (by rw [hdname, hfname])
  · intro e he hroot
    exact List.mem_map.mpr
      ⟨e, List.mem_filter.mpr ⟨he, by simp [hroot]⟩, rfl⟩
  · intro r hr hroot
    by_cases ht :
        (extendZipEntry uuid r).type = DirectoryEntryType.directory
    · have hmemc : extendZipEntry uuid r ∈ raws.map (extendZipEntry uuid) :=
        List.mem_map.mpr ⟨r, hr, rfl⟩
      have hhas := finalDirs_has_of_collect
        (collectDirectories_has hmemc ht)
      obtain ⟨v, hv⟩ := alistHas_get hhas
      have hkv := alistGet_mem hv
      obtain ⟨hvtype, hvkey, hvname, _⟩ := finalDirs_inv hwf _ hkv
      have hinj := append_slash_inj hvname
        (extendZipEntry_wf uuid r).2 hvkey.symm
      have hvres : v ∈ addMissingDirectoryEntries
          (raws.map (extendZipEntry uuid)) := by
        unfold addMissingDirectoryEntries
        exact List.mem_append.mpr (Or.inl (alistValues_mem hkv))
      refine List.mem_map.mpr ⟨v, List.mem_filter.mpr ⟨hvres, ?_⟩, hinj.2⟩
      have : v.parentPath = "" := by rw [hinj.1, hroot]
      simp [this]
    · have hmemf : extendZipEntry uuid r ∈
          (raws.map (extendZipEntry uuid)).filter
            (fun e => e.type != DirectoryEntryType.directory) :=
        List.mem_filter.mpr ⟨List.mem_map.mpr ⟨r, hr, rfl⟩, by simpa using ht⟩
      have hres : extendZipEntry uuid r ∈ addMissingDirectoryEntries
          (raws.map (extendZipEntry uuid)) := by
        unfold addMissingDirectoryEntries
        exact List.mem_append.mpr (Or.inr hmemf)
      exact List.mem_map.mpr
        ⟨extendZipEntry uuid r,
          List.mem_filter.mpr ⟨hres, by simp [hroot]⟩, rfl⟩

/-- Witness for C2: the five-entry scenario archive (directory
`subdirectory/`, nested file, two root files, and `subdirectory.json`)
satisfies both distinctness hypotheses, and its root-listing names are
pairwise distinct. -/
theorem root_listing_names_witness :
    ((((addMissingDirectoryEntries
      ([{ filename := "subdirectory/", directory := true, getData := none },
        { filename := "subdirectory/nested.json", directory := false,
          getData := some [1] },
        { filename := "test.txt", directory := false, getData := some [2] },
        { filename := "binary.bin", directory := false, getData := some [3] },
        { filename := "subdirectory.json", directory := false,
          getData := some [4] }].map (extendZipEntry "u"))).filter
      (fun e => e.parentPath == "")).map ExtendedZipEntry.name)).Nodup :=
  (root_listing_names "u"
    [{ filename := "subdirectory/", directory := true, getData := none },
      { filename := "subdirectory/nested.json", directory := false,
        getData := some [1] },
      { filename := "test.txt", directory := false, getData := some [2] },
      { filename := "binary.bin", directory := false, getData := some [3] },
      { filename := "subdirectory.json", directory := false,
        getData := some [4] }]
    (by decide) (by decide)).2.1

/-! ### The virtual URL / index key invariant -/

theorem startsWithSlash_dropLast {s : String}
    (h : startsWithSlash s = false) :
    startsWithSlash (String.mk s.data.dropLast) = false := by
  unfold startsWithSlash at h ⊢
  cases hd : s.data with
  | nil => simp
  | cons c rest =>
    rw [hd] at h
    have hc : ¬ c = '/' := by simpa using h
    cases rest with
    | nil => simp
    | cons c2 rest' => simpa using hc

/-- Counterexample to C10 as stated: for the raw entry with filename `/abs`,
the minted virtual URL has pathname `//abs`, and splitting it yields the
parent `/` -- not the parent `""` under which the entry was indexed. -/
theorem extendZipEntry_url_pathname_mismatch :
    splitPath (extendZipEntry "u"
      { filename := "/abs", directory := false, getData := none }).url.pathname ≠
      ((extendZipEntry "u"
        { filename := "/abs", directory := false, getData := none }).parentPath,
        (extendZipEntry "u"
          { filename := "/abs", directory := false,
            getData := none }).name) := by
  decide

/-- C10 (amended): for every raw entry whose filename does not begin with a
separator, splitting the minted virtual URL's pathname recovers exactly the
entry's parent path and name -- hence the grouping key that
`readBinaryFromFile` derives from a virtual URL equals the parent path under
which the entry was indexed. -/
theorem extendZipEntry_splitPath_url (hostname : String) (e : ZipEntry)
    (h : startsWithSlash e.filename = false) :
    splitPath (extendZipEntry hostname e).url.pathname =
      ((extendZipEntry hostname e).parentPath,
        (extendZipEntry hostname e).name) := by
  simp only [extendZipEntry]
  by_cases hc : (e.directory && endsWithSlash e.filename) = true
  · rw [if_pos hc]
    rw [splitPath_slash_append _ (startsWithSlash_dropLast h)]
  · rw [if_neg hc]
    rw [splitPath_slash_append _ h]

/-- Witness for C10: for the plain file `a/b.txt`, splitting the virtual
URL's pathname recovers the indexed parent path and name. -/
theorem extendZipEntry_splitPath_url_witness :
    splitPath (extendZipEntry "u"
      { filename := "a/b.txt", directory := false,
        getData := none }).url.pathname =
      ((extendZipEntry "u"
        { filename := "a/b.txt", directory := false,
          getData := none }).parentPath,
        (extendZipEntry "u"
          { filename := "a/b.txt", directory := false,
            getData := none }).name) :=
  extendZipEntry_splitPath_url "u"
    { filename := "a/b.txt", directory := false, getData := none } (by decide)

/-! ### Binary reads from a loaded archive -/

/-- C3: `readBinaryFromFile` searches the parent group derived from the
requested URL for the entry whose URL serializes identically: it fails with
NotFound naming the exact requested path when no such entry exists, fails
with InternalConsistency when the match is a synthesized entry or its raw
entry has no `getData`, and returns the decompressed bytes otherwise. -/
theorem readBinaryFromFile_spec
    (contents : List (String × List ExtendedZipEntry)) (fileUrl : URL) :
    (readBinaryFromFile contents fileUrl =
        Except.error (ZipError.notFound
          ("There is no file at path \"" ++ fileUrl.pathname ++
            "\" in zip file")) ↔
      ∀ e ∈ (alistGet contents (splitPath fileUrl.pathname).1).getD [],
        e.url.href ≠ fileUrl.href) ∧
    (∀ e, ((alistGet contents (splitPath fileUrl.pathname).1).getD []).find?
        (fun x => x.url.href == fileUrl.href) = some e →
      (e.entry = none →
        readBinaryFromFile contents fileUrl =
          Except.error (ZipError.internalConsistency
            ("Internal error reading file at path \"" ++ fileUrl.pathname ++
              "\" in zip file -- attempting to load a synthetic entry"))) ∧
      (∀ raw, e.entry = some raw →
        (raw.getData = none →
          readBinaryFromFile contents fileUrl =
            Except.error (ZipError.internalConsistency
              ("Internal error reading file at path \"" ++
                fileUrl.pathname ++
                "\" in zip file -- there is no getData method"))) ∧
        (∀ b, raw.getData = some b →
          readBinaryFromFile contents fileUrl = Except.ok b))) ∧
    (∀ b, readBinaryFromFile contents fileUrl = Except.ok b →
      ∃ e ∈ (alistGet contents (splitPath fileUrl.pathname).1).getD [],
        e.url.href = fileUrl.href ∧
          ∃ raw, e.entry = some raw ∧ raw.getData = some b) := by
  cases hfind : ((alistGet contents (splitPath fileUrl.pathname).1).getD
      []).find? (fun x => x.url.href == fileUrl.href) with
  | none =>
    have heq : readBinaryFromFile contents fileUrl =
        Except.error (ZipError.notFound
          ("There is no file at path \"" ++ fileUrl.pathname ++
            "\" in zip file")) := by
      unfold readBinaryFromFile
      simp only []
      rw [hfind]
    have hall : ∀ e ∈ (alistGet contents
        (splitPath fileUrl.pathname).1).getD [],
        e.url.href ≠ fileUrl.href := by
      intro e he
      have := List.find?_eq_none.mp hfind e he
      simpa using this
    refine ⟨⟨fun _ => hall, fun _ => heq⟩, ?_, ?_⟩
    · intro e he
      cases he
    · intro b hb
      rw [heq] at hb
      cases hb
  | some e =>
    have hmem := List.mem_of_find?_eq_some hfind
    have hhref : e.url.href = fileUrl.href := by
      have := List.find?_some hfind
      simpa using this
    have hnall : ¬ ∀ x ∈ (alistGet contents
        (splitPath fileUrl.pathname).1).getD [],
        x.url.href ≠ fileUrl.href :=
      fun hall => hall e hmem hhref
    cases hentry : e.entry with
    | none =>
      have heq : readBinaryFromFile contents fileUrl =
          Except.error (ZipError.internalConsistency
            ("Internal error reading file at path \"" ++ fileUrl.pathname ++
              "\" in zip file -- attempting to load a synthetic entry")) := by
        unfold readBinaryFromFile
        simp only []
        rw [hfind]
        simp only []
        rw [hentry]
      refine ⟨⟨fun hne => ?_, fun hall => absurd hall hnall⟩, ?_, ?_⟩
      · rw [heq] at hne
        injection hne with hmsg
        cases hmsg
      · intro e2 he2
        injection he2 with he2
        subst he2
        refine ⟨fun _ => heq, ?_⟩
        intro raw hraw
        rw [hentry] at hraw
        cases hraw
      · intro b hb
        rw [heq] at hb
        cases hb
    | some raw =>
      cases hdata : raw.getData with
      | none =>
        have heq : readBinaryFromFile contents fileUrl =
            Except.error (ZipError.internalConsistency
              ("Internal error reading file at path \"" ++
                fileUrl.pathname ++
                "\" in zip file -- there is no getData method")) := by
          unfold readBinaryFromFile
          simp only []
          rw [hfind]
          simp only []
          rw [hentry]
          simp only []
          rw [hdata]
        refine ⟨⟨fun hne => ?_, fun hall => absurd hall hnall⟩, ?_, ?_⟩
        · rw [heq] at hne
          injection hne with hmsg
          cases hmsg
        · intro e2 he2
          injection he2 with he2
          subst he2
          refine ⟨fun habs => ?_, ?_⟩
          · rw [hentry] at habs
            cases habs
          · intro raw2 hraw2
            rw [hentry] at hraw2
            injection hraw2 with hraw2
            subst hraw2
            refine ⟨fun _ => heq, ?_⟩
            intro b hb
            rw [hdata] at hb
            cases hb
        · intro b hb
          rw [heq] at hb
          cases hb
      | some bytes =>
        have heq : readBinaryFromFile contents fileUrl =
            Except.ok bytes := by
          unfold readBinaryFromFile
          simp only []
          rw [hfind]
          simp only []
          rw [hentry]
          simp only []
          rw [hdata]
        refine ⟨⟨fun hne => ?_, fun hall => absurd hall hnall⟩, ?_, ?_⟩
        · rw [heq] at hne
          cases hne
        · intro e2 he2
          injection he2 with he2
          subst he2
          refine ⟨fun habs => ?_, ?_⟩
          · rw [hentry] at habs
            cases habs
          · intro raw2 hraw2
            rw [hentry] at hraw2
            injection hraw2 with hraw2
            subst hraw2
            refine ⟨fun habs => ?_, ?_⟩
            · rw [hdata] at habs
              cases habs
            · intro b hb
              rw [hdata] at hb
              injection hb with hb
              subst hb
              exact heq
        · intro b hb
          rw [heq] at hb
          injection hb with hb
          subst hb
          exact ⟨e, hmem, hhref, raw, hentry, hdata⟩

/-- Witness for C3: in an archive containing only `a.txt`, requesting the
virtual path `/nonexistent` fails with NotFound naming that exact path. -/
theorem readBinaryFromFile_spec_witness :
    readBinaryFromFile (buildZipContents "u"
      [{ filename := "a.txt", directory := false, getData := some [7] }])
      { protocol := "czf:", hostname := "u", pathname := "/nonexistent" } =
      Except.error (ZipError.notFound
        ("There is no file at path \"/nonexistent\" in zip file")) :=
  (readBinaryFromFile_spec (buildZipContents "u"
    [{ filename := "a.txt", directory := false, getData := some [7] }])
    { protocol := "czf:", hostname := "u",
      pathname := "/nonexistent" }).1.mpr (by decide)

/-! ### The eviction machinery -/

theorem scheduleEvictor_cache (s h n : Nat) (st : ReaderState) :
    (scheduleEvictor s h n st).cache = st.cache := by
  unfold scheduleEvictor
  by_cases h1 : st.evictorDeadline.isSome = true
  · rw [if_pos h1]
  · rw [if_neg h1]
    simp only []
    split_ifs <;> rfl

theorem fireEvictor_cache (s h n : Nat) (st : ReaderState) :
    (fireEvictor s h n st).cache = evictExpiredCacheEntries n st.cache := by
  unfold fireEvictor
  rw [scheduleEvictor_cache]

/-- C9: with both TTLs configured as zero, the eviction task is never
scheduled (an idle evictor stays idle after any `scheduleEvictor` call),
touching a handle sets both expiration deadlines to `MAX_SAFE_INTEGER`, and
the eviction sweep never removes or soft-evicts such handles. -/
theorem ttl_zero_no_eviction (softTTL hardTTL : Nat) (hs : softTTL = 0)
    (hh : hardTTL = 0) :
    (∀ (now : Nat) (st : ReaderState), st.evictorDeadline = none →
      (scheduleEvictor softTTL hardTTL now st).evictorDeadline = none) ∧
    (∀ (now : Nat) (info : ZipFileInformation),
      (touchZipFileInformation softTTL hardTTL now info).softExpires =
        maxSafeInteger ∧
      (touchZipFileInformation softTTL hardTTL now info).hardExpires =
        maxSafeInteger) ∧
    (∀ (now : Nat) (cache : List (String × ZipFileInformation)),
      now ≤ maxSafeInteger →
      (∀ kv ∈ cache, kv.2.softExpires = maxSafeInteger ∧
        kv.2.hardExpires = maxSafeInteger) →
      evictExpiredCacheEntries now cache = cache) := by
  subst hs
  subst hh
  refine ⟨?_, ?_, ?_⟩
  · intro now st hd
    unfold scheduleEvictor
    simp [hd]
  · intro now info
    unfold touchZipFileInformation
    simp
  · intro now cache hnow hall
    unfold evictExpiredCacheEntries
    have h1 : cache.filter (fun kv => !decide (kv.2.hardExpires < now)) =
        cache := by
      apply List.filter_eq_self.mpr
      intro kv hkv
      rw [(hall kv hkv).2]
      simp
      omega
    rw [h1]
    have h2 : ∀ kv ∈ cache,
        (if kv.2.softExpires < now
          then (kv.1,
            { kv.2 with
              reader := none, contents := none,
              softExpires := maxSafeInteger })
          else kv) = kv := by
      intro kv hkv
      rw [if_neg]
      rw [(hall kv hkv).1]
      omega
    calc cache.map (fun kv =>
          if kv.2.softExpires < now
          then (kv.1,
            { kv.2 with
              reader := none, contents := none,
              softExpires := maxSafeInteger })
          else kv)
        = cache.map id := List.map_congr_left (fun kv hkv => h2 kv hkv)
      _ = cache := List.map_id cache

/-- Witness for C9: with both TTLs zero, an idle evictor stays idle on a
populated cache. -/
theorem ttl_zero_no_eviction_witness :
    (scheduleEvictor 0 0 5
      ⟨[("a", ⟨some [], "a", ⟨"file:", "", "/a"⟩, none, maxSafeInteger,
        maxSafeInteger⟩)], none⟩).evictorDeadline = none :=
  (ttl_zero_no_eviction 0 0 rfl rfl).1 5 _ rfl

/-- Counterexample to C8 as stated: firing the evictor at time 10000 with
softTTL 10000 (hardTTL 60000) reschedules the task for 20000, even though a
surviving handle's soft deadline is 15000 -- the task is scheduled a fixed
TTL after the scheduling moment, not for the earliest deadline among
handles. -/
theorem evictor_not_earliest_deadline :
    (fireEvictor 10000 60000 10000
      ⟨[("a", ⟨some [], "a", ⟨"file:", "", "/a"⟩, none, 9000, 60000⟩),
        ("b", ⟨some [], "b", ⟨"file:", "", "/b"⟩, none, 15000, 69999⟩)],
        none⟩).evictorDeadline = some 20000 ∧
    ("b", (⟨some [], "b", ⟨"file:", "", "/b"⟩, none, 15000, 69999⟩ :
        ZipFileInformation)) ∈
      (fireEvictor 10000 60000 10000
        ⟨[("a", ⟨some [], "a", ⟨"file:", "", "/a"⟩, none, 9000, 60000⟩),
          ("b", ⟨some [], "b", ⟨"file:", "", "/b"⟩, none, 15000, 69999⟩)],
          none⟩).cache ∧
    (15000 : Nat) < 20000 := by
  refine ⟨rfl, ?_, by decide⟩
  decide

/-- C8 (amended): every successful resolution returns a handle whose
expiration deadlines were refreshed from the current time; at most one
eviction task exists (scheduling is a no-op while one is pending); and when
the task fires it removes every handle whose hard deadline has passed,
drops the reader and contents of every surviving handle whose soft deadline
has passed, and goes idle when no handles remain.  The task is rescheduled
a fixed TTL after the firing moment, not for the earliest deadline among
handles (see the counterexample). -/
theorem evictor_behavior :
    (∀ (s h : Nat) (world : World) (now : Nat) (fresh : String)
        (st st' : ReaderState) (url : URL) (info : ZipFileInformation),
      urlToZipFileInformation s h world now fresh st url =
        (st', Except.ok (some info)) →
      info.softExpires = (if 0 < s then now + s else maxSafeInteger) ∧
      info.hardExpires = (if 0 < h then now + h else maxSafeInteger)) ∧
    (∀ (s h now : Nat) (st : ReaderState) (d : Nat),
      st.evictorDeadline = some d → scheduleEvictor s h now st = st) ∧
    (∀ (s h now : Nat) (st : ReaderState),
      (∀ kv ∈ (fireEvictor s h now st).cache, ¬ kv.2.hardExpires < now) ∧
      (∀ kv ∈ st.cache, ¬ kv.2.hardExpires < now → kv.2.softExpires < now →
        (kv.1,
          { kv.2 with
            reader := none, contents := none,
            softExpires := maxSafeInteger }) ∈
          (fireEvictor s h now st).cache) ∧
      ((fireEvictor s h now st).cache = [] →
        (fireEvictor s h now st).evictorDeadline = none)) := by
  refine ⟨?_, ?_, ?_⟩
  · intro s h world now fresh st st' url info hEq
    unfold urlToZipFileInformation at hEq
    cases hlk : lookupCacheEntry st.cache url with
    | none =>
      rw [hlk] at hEq
      simp only [] at hEq
      injection hEq with _ h2
      injection h2 with h3
      cases h3
    | some entry =>
      rw [hlk] at hEq
      simp only [] at hEq
      cases hr : entry.reader with
      | some r =>
        rw [hr] at hEq
        simp only [] at hEq
        injection hEq with _ h2
        injection h2 with h3
        injection h3 with h4
        rw [← h4]
        unfold touchZipFileInformation
        exact ⟨rfl, rfl⟩
      | none =>
        rw [hr] at hEq
        simp only [] at hEq
        unfold loadZipFile at hEq
        cases hw : world.readBinaryFromLocation entry.location with
        | error msg =>
          rw [hw] at hEq
          simp only [] at hEq
          injection hEq with _ h2
          cases h2
        | ok bytes =>
          rw [hw] at hEq
          simp only [] at hEq
          injection hEq with _ h2
          injection h2 with h3
          injection h3 with h4
          rw [← h4]
          unfold touchZipFileInformation
          exact ⟨rfl, rfl⟩
  · intro s h now st d hd
    unfold scheduleEvictor
    rw [hd]
    rfl
  · intro s h now st
    refine ⟨?_, ?_, ?_⟩
    · intro kv hkv
      rw [fireEvictor_cache] at hkv
      unfold evictExpiredCacheEntries at hkv
      obtain ⟨kv0, hkv0, heq⟩ := List.mem_map.mp hkv
      have hpred := (List.mem_filter.mp hkv0).2
      have hhard : ¬ kv0.2.hardExpires < now := by simpa using hpred
      by_cases hsoft : kv0.2.softExpires < now
      · rw [if_pos hsoft] at heq
        rw [← heq]
        exact hhard
      · rw [if_neg hsoft] at heq
        rw [← heq]
        exact hhard
    · intro kv hkv hhard hsoft
      rw [fireEvictor_cache]
      unfold evictExpiredCacheEntries
      refine List.mem_map.mpr ⟨kv, List.mem_filter.mpr ⟨hkv, ?_⟩, ?_⟩
      · simpa using hhard
      · rw [if_pos hsoft]
    · intro hnil
      rw [fireEvictor_cache] at hnil
      unfold fireEvictor scheduleEvictor
      rw [hnil]
      simp [haveSoftEvictionCandidates, haveHardEvictionCandidates]

/-- Witness for C8: a pending eviction task is never doubled -- scheduling
with a task already armed leaves the state unchanged. -/
theorem evictor_behavior_witness :
    scheduleEvictor 10000 60000 0
      ⟨[("a", ⟨some [], "a", ⟨"file:", "", "/a"⟩, none, 10000, 60000⟩)],
        some 10000⟩ =
      ⟨[("a", ⟨some [], "a", ⟨"file:", "", "/a"⟩, none, 10000, 60000⟩)],
        some 10000⟩ :=
  evictor_behavior.2.1 10000 60000 0 _ 10000 rfl

/-! ### Failed loads -/

/-- Counterexample to C6 as stated: with a byte source that succeeds but a
codec whose entry-table parse fails, one request from an empty cache
returns the propagated decode error yet leaves a handle in the cache --
the decode happens only after the handle was cached. -/
theorem decode_failure_handle_retained :
    (readDirectoryContentsImpl 10000 60000
      ⟨fun _ => Except.ok [1], fun _ => Except.error "corrupt"⟩ 0 "u"
      ⟨[], none⟩ ⟨"file:", "", "/a.zip"⟩).2 =
      Except.error (ZipError.loadError "corrupt") ∧
    (readDirectoryContentsImpl 10000 60000
      ⟨fun _ => Except.ok [1], fun _ => Except.error "corrupt"⟩ 0 "u"
      ⟨[], none⟩ ⟨"file:", "", "/a.zip"⟩).1.cache ≠ [] := by
  constructor
  · rfl
  · decide

/-- C6 (amended): a failed byte-source read creates no handle (the cache
state is returned untouched); a stale handle whose reload fails is deleted
from the cache; and a codec decode failure happens after caching: from an
empty cache, the request propagates the decode error while the handle stays
cached with its contents still unbuilt, so the next request retries the
decode. -/
theorem failed_load_behavior :
    (∀ (s h : Nat) (world : World) (now : Nat) (fresh : String)
        (st : ReaderState) (path : URL) (msg : String),
      world.readBinaryFromLocation path = Except.error msg →
      loadAndCacheZipFile s h world now fresh st path =
        (st, Except.error msg)) ∧
    (∀ (s h : Nat) (world : World) (now : Nat) (fresh : String)
        (st : ReaderState) (url : URL) (entry : ZipFileInformation)
        (msg : String),
      lookupCacheEntry st.cache url = some entry →
      entry.reader = none →
      world.readBinaryFromLocation entry.location = Except.error msg →
      urlToZipFileInformation s h world now fresh st url =
        ({ st with
          cache := st.cache.filter (fun kv => kv.1 != entry.uuid) },
          Except.error msg)) ∧
    (∀ (s h : Nat) (world : World) (now : Nat) (fresh : String)
        (url : URL) (bytes : List Nat) (msg : String),
      world.readBinaryFromLocation url = Except.ok bytes →
      world.getEntries bytes = Except.error msg →
      url.protocol ≠ "czf:" →
      (readDirectoryContentsImpl s h world now fresh ⟨[], none⟩ url).2 =
        Except.error (ZipError.loadError msg) ∧
      ∃ info,
        alistGet (readDirectoryContentsImpl s h world now fresh
          ⟨[], none⟩ url).1.cache fresh = some info ∧
        info.reader = some bytes ∧ info.contents = none) := by
  refine ⟨?_, ?_, ?_⟩
  · intro s h world now fresh st path msg hw
    unfold loadAndCacheZipFile loadZipFile
    rw [hw]
  · intro s h world now fresh st url entry msg hlk hr hw
    unfold urlToZipFileInformation
    rw [hlk]
    simp only []
    rw [hr]
    simp only []
    unfold loadZipFile
    rw [hw]
  · intro s h world now fresh url bytes msg hw hge hproto
    have h1 : urlToZipFileInformation s h world now fresh ⟨[], none⟩ url =
        (⟨[], none⟩, Except.ok none) := by
      unfold urlToZipFileInformation lookupCacheEntry
        lookupZipFileInformationByLocation
      rw [if_neg hproto]
      rfl
    have h2 : loadAndCacheZipFile s h world now fresh ⟨[], none⟩ url =
        (scheduleEvictor s h now
          ⟨[(fresh, touchZipFileInformation s h now
            ⟨some bytes, fresh, url, none, 0, 0⟩)], none⟩,
          Except.ok (touchZipFileInformation s h now
            ⟨some bytes, fresh, url, none, 0, 0⟩)) := by
      unfold loadAndCacheZipFile loadZipFile
      rw [hw]
      rfl
    have h3 : readDirectoryContentsImpl s h world now fresh
        ⟨[], none⟩ url =
        (scheduleEvictor s h now
          ⟨[(fresh, touchZipFileInformation s h now
            ⟨some bytes, fresh, url, none, 0, 0⟩)], none⟩,
          Except.error (ZipError.loadError msg)) := by
      unfold readDirectoryContentsImpl
      rw [h1]
      simp only []
      rw [h2]
      simp only []
      unfold readDirectoryContentsResolved
      simp only [touchZipFileInformation]
      rw [hge]
    rw [h3]
    refine ⟨rfl, ?_⟩
    refine ⟨touchZipFileInformation s h now
      ⟨some bytes, fresh, url, none, 0, 0⟩, ?_, rfl, rfl⟩
    rw [scheduleEvictor_cache]
    simp [alistGet]

/-- Witness for C6: a byte-source failure on an empty cache returns the
error and leaves the cache empty. -/
theorem failed_load_behavior_witness :
    loadAndCacheZipFile 10000 60000
      ⟨fun _ => Except.error "io", fun _ => Except.ok []⟩ 0 "u"
      ⟨[], none⟩ ⟨"file:", "", "/a.zip"⟩ =
      (⟨[], none⟩, Except.error "io") :=
  failed_load_behavior.1 10000 60000
    ⟨fun _ => Except.error "io", fun _ => Except.ok []⟩ 0 "u"
    ⟨[], none⟩ ⟨"file:", "", "/a.zip"⟩ "io" rfl

/-! ### Transparent reload of stale handles -/

/-- C7: when the lookup finds a cached handle whose reader is gone and the
byte source succeeds, `urlToZipFileInformation` transparently reloads: it
returns (no error) an updated handle with the same uuid and a fresh reader,
stored in the cache under that same uuid -- so virtual URLs minted against
the old handle keep resolving. -/
theorem stale_handle_reload (s h : Nat) (world : World) (now : Nat)
    (fresh : String) (st : ReaderState) (url : URL)
    (entry : ZipFileInformation) (bytes : List Nat)
    (hlk : lookupCacheEntry st.cache url = some entry)
    (hr : entry.reader = none)
    (hw : world.readBinaryFromLocation entry.location = Except.ok bytes) :
    ∃ updated : ZipFileInformation,
      urlToZipFileInformation s h world now fresh st url =
        (scheduleEvictor s h now
          { st with cache := alistSet st.cache updated.uuid updated },
          Except.ok (some updated)) ∧
      updated.uuid = entry.uuid ∧
      updated.reader = some bytes ∧
      updated.location = entry.location ∧
      alistGet (urlToZipFileInformation s h world now fresh st url).1.cache
        entry.uuid = some updated := by
  refine ⟨touchZipFileInformation s h now
    { entry with reader := some bytes, contents := none }, ?_, rfl, rfl,
    rfl, ?_⟩
  · unfold urlToZipFileInformation
    rw [hlk]
    simp only []
    rw [hr]
    simp only []
    unfold loadZipFile
    rw [hw]
    rfl
  · have hEq : urlToZipFileInformation s h world now fresh st url =
        (scheduleEvictor s h now
          { st with
            cache := (alistSet st.cache
              (touchZipFileInformation s h now
                { entry with reader := some bytes, contents := none }).uuid
              (touchZipFileInformation s h now
                { entry with reader := some bytes, contents := none })) },
          Except.ok (some (touchZipFileInformation s h now
            { entry with reader := some bytes, contents := none }))) := by
      unfold urlToZipFileInformation
      rw [hlk]
      simp only []
      rw [hr]
      simp only []
      unfold loadZipFile
      rw [hw]
      rfl
    rw [hEq]
    simp only []
    rw [scheduleEvictor_cache]
    exact alistGet_set_self st.cache entry.uuid _

/-- Witness for C7: a soft-evicted handle under uuid `a` is reloaded under
the same uuid when looked up through a `czf://a/...` URL. -/
theorem stale_handle_reload_witness :
    ∃ updated : ZipFileInformation,
      updated.uuid = "a" ∧ updated.reader = some [5] ∧
      alistGet (urlToZipFileInformation 10000 60000
        ⟨fun _ => Except.ok [5], fun _ => Except.ok []⟩ 0 "tmp"
        ⟨[("a", ⟨none, "a", ⟨"file:", "", "/a.zip"⟩, none, 0, 0⟩)], none⟩
        ⟨"czf:", "a", "/f"⟩).1.cache "a" = some updated := by
  obtain ⟨u, _, h2, h3, _, h5⟩ := stale_handle_reload 10000 60000
    ⟨fun _ => Except.ok [5], fun _ => Except.ok []⟩ 0 "tmp"
    ⟨[("a", ⟨none, "a", ⟨"file:", "", "/a.zip"⟩, none, 0, 0⟩)], none⟩
    ⟨"czf:", "a", "/f"⟩
    ⟨none, "a", ⟨"file:", "", "/a.zip"⟩, none, 0, 0⟩ [5] rfl rfl rfl
  exact ⟨u, h2, h3, h5⟩

/-! ### Idempotent resolution of an already-loaded location -/

/-- C5: loading a source location from an empty cache and then resolving the
same location again finds the handle by location scan: the second request
serves the same uuid with the reader and the built content index preserved
(the entry table is not re-parsed), and returns the same listing. -/
theorem load_twice_idempotent (s h now1 now2 : Nat) (world : World)
    (u1 u2 : String) (url : URL) (bytes : List Nat)
    (entries : List ZipEntry)
    (hw : world.readBinaryFromLocation url = Except.ok bytes)
    (hge : world.getEntries bytes = Except.ok entries)
    (hproto : url.protocol ≠ "czf:") :
    ∃ info1 info2 : ZipFileInformation,
      alistGet (readDirectoryContentsImpl s h world now1 u1
        ⟨[], none⟩ url).1.cache u1 = some info1 ∧
      alistGet (readDirectoryContentsImpl s h world now2 u2
        (readDirectoryContentsImpl s h world now1 u1
          ⟨[], none⟩ url).1 url).1.cache u1 = some info2 ∧
      info1.uuid = u1 ∧ info2.uuid = u1 ∧
      info2.reader = info1.reader ∧
      info2.contents = info1.contents ∧
      info1.contents = some (buildZipContents u1 entries) ∧
      (readDirectoryContentsImpl s h world now2 u2
        (readDirectoryContentsImpl s h world now1 u1
          ⟨[], none⟩ url).1 url).2 =
        (readDirectoryContentsImpl s h world now1 u1 ⟨[], none⟩ url).2 := by
  have h1 : urlToZipFileInformation s h world now1 u1 ⟨[], none⟩ url =
      (⟨[], none⟩, Except.ok none) := by
    unfold urlToZipFileInformation lookupCacheEntry
      lookupZipFileInformationByLocation
    rw [if_neg hproto]
    rfl
  have h2 : loadAndCacheZipFile s h world now1 u1 ⟨[], none⟩ url =
      (scheduleEvictor s h now1 ⟨[(u1, touchZipFileInformation s h now1 ⟨some bytes, u1, url, none, 0, 0⟩)], none⟩,
        Except.ok (touchZipFileInformation s h now1 ⟨some bytes, u1, url, none, 0, 0⟩)) := by
    unfold loadAndCacheZipFile loadZipFile
    rw [hw]
    rfl
  have h3 : readDirectoryContentsImpl s h world now1 u1 ⟨[], none⟩ url =
      ({ scheduleEvictor s h now1 ⟨[(u1, touchZipFileInformation s h now1 ⟨some bytes, u1, url, none, 0, 0⟩)], none⟩ with
        cache := (alistSet (scheduleEvictor s h now1 ⟨[(u1, touchZipFileInformation s h now1 ⟨some bytes, u1, url, none, 0, 0⟩)], none⟩).cache u1
          { touchZipFileInformation s h now1 ⟨some bytes, u1, url, none, 0, 0⟩ with contents := some (buildZipContents u1 entries) }) },
        readDirectoryContents (buildZipContents u1 entries)
          (pathInZipFile url)) := by
    unfold readDirectoryContentsImpl
    rw [h1]
    simp only []
    rw [h2]
    simp only []
    unfold readDirectoryContentsResolved
    simp only [touchZipFileInformation]
    rw [hge]
  have hc : ({ scheduleEvictor s h now1 ⟨[(u1, touchZipFileInformation s h now1 ⟨some bytes, u1, url, none, 0, 0⟩)], none⟩ with
      cache := (alistSet (scheduleEvictor s h now1 ⟨[(u1, touchZipFileInformation s h now1 ⟨some bytes, u1, url, none, 0, 0⟩)], none⟩).cache u1
        { touchZipFileInformation s h now1 ⟨some bytes, u1, url, none, 0, 0⟩ with contents := some (buildZipContents u1 entries) }) } : ReaderState).cache =
      [(u1, { touchZipFileInformation s h now1 ⟨some bytes, u1, url, none, 0, 0⟩ with contents := some (buildZipContents u1 entries) })] := by
    show alistSet (scheduleEvictor s h now1 ⟨[(u1, touchZipFileInformation s h now1 ⟨some bytes, u1, url, none, 0, 0⟩)], none⟩).cache u1
      { touchZipFileInformation s h now1 ⟨some bytes, u1, url, none, 0, 0⟩ with contents := some (buildZipContents u1 entries) } = _
    rw [scheduleEvictor_cache]
    simp [alistSet]
  have hlk2 : lookupCacheEntry ({ scheduleEvictor s h now1 ⟨[(u1, touchZipFileInformation s h now1 ⟨some bytes, u1, url, none, 0, 0⟩)], none⟩ with
      cache := (alistSet (scheduleEvictor s h now1 ⟨[(u1, touchZipFileInformation s h now1 ⟨some bytes, u1, url, none, 0, 0⟩)], none⟩).cache u1
        { touchZipFileInformation s h now1 ⟨some bytes, u1, url, none, 0, 0⟩ with contents := some (buildZipContents u1 entries) }) } : ReaderState).cache url =
      some ({ touchZipFileInformation s h now1 ⟨some bytes, u1, url, none, 0, 0⟩ with contents := some (buildZipContents u1 entries) }) := by
    unfold lookupCacheEntry lookupZipFileInformationByLocation
    rw [if_neg hproto, hc]
    have hp : (((u1, { touchZipFileInformation s h now1 ⟨some bytes, u1, url, none, 0, 0⟩ with contents := some (buildZipContents u1 entries) }) :
        String × ZipFileInformation).2.location.href == url.href) = true := by
      rw [show ((u1, { touchZipFileInformation s h now1 ⟨some bytes, u1, url, none, 0, 0⟩ with contents := some (buildZipContents u1 entries) }) :
        String × ZipFileInformation).2.location = url from rfl]
      exact beq_self_eq_true _
    simp only [List.find?, hp]
    rfl
  have hurl2 : urlToZipFileInformation s h world now2 u2
      ({ scheduleEvictor s h now1 ⟨[(u1, touchZipFileInformation s h now1 ⟨some bytes, u1, url, none, 0, 0⟩)], none⟩ with
        cache := (alistSet (scheduleEvictor s h now1 ⟨[(u1, touchZipFileInformation s h now1 ⟨some bytes, u1, url, none, 0, 0⟩)], none⟩).cache u1
          { touchZipFileInformation s h now1 ⟨some bytes, u1, url, none, 0, 0⟩ with contents := some (buildZipContents u1 entries) }) } : ReaderState) url =
      (scheduleEvictor s h now2
        { ({ scheduleEvictor s h now1 ⟨[(u1, touchZipFileInformation s h now1 ⟨some bytes, u1, url, none, 0, 0⟩)], none⟩ with
          cache := (alistSet (scheduleEvictor s h now1 ⟨[(u1, touchZipFileInformation s h now1 ⟨some bytes, u1, url, none, 0, 0⟩)], none⟩).cache u1
            { touchZipFileInformation s h now1 ⟨some bytes, u1, url, none, 0, 0⟩ with contents := some (buildZipContents u1 entries) }) } : ReaderState) with
          cache := (alistSet
            ({ scheduleEvictor s h now1 ⟨[(u1, touchZipFileInformation s h now1 ⟨some bytes, u1, url, none, 0, 0⟩)], none⟩ with
              cache := (alistSet (scheduleEvictor s h now1 ⟨[(u1, touchZipFileInformation s h now1 ⟨some bytes, u1, url, none, 0, 0⟩)], none⟩).cache u1
                { touchZipFileInformation s h now1 ⟨some bytes, u1, url, none, 0, 0⟩ with contents := some (buildZipContents u1 entries) }) } : ReaderState).cache
            u1
            (touchZipFileInformation s h now2
              ({ touchZipFileInformation s h now1 ⟨some bytes, u1, url, none, 0, 0⟩ with contents := some (buildZipContents u1 entries) }))) },
        Except.ok (some (touchZipFileInformation s h now2
          ({ touchZipFileInformation s h now1 ⟨some bytes, u1, url, none, 0, 0⟩ with contents := some (buildZipContents u1 entries) })))) := by
    unfold urlToZipFileInformation
    rw [hlk2]
    simp only [touchZipFileInformation]
  have h3x : readDirectoryContentsImpl s h world now2 u2
      ({ scheduleEvictor s h now1 ⟨[(u1, touchZipFileInformation s h now1 ⟨some bytes, u1, url, none, 0, 0⟩)], none⟩ with
        cache := (alistSet (scheduleEvictor s h now1 ⟨[(u1, touchZipFileInformation s h now1 ⟨some bytes, u1, url, none, 0, 0⟩)], none⟩).cache u1
          { touchZipFileInformation s h now1 ⟨some bytes, u1, url, none, 0, 0⟩ with contents := some (buildZipContents u1 entries) }) } : ReaderState) url =
      (scheduleEvictor s h now2
        { ({ scheduleEvictor s h now1 ⟨[(u1, touchZipFileInformation s h now1 ⟨some bytes, u1, url, none, 0, 0⟩)], none⟩ with
          cache := (alistSet (scheduleEvictor s h now1 ⟨[(u1, touchZipFileInformation s h now1 ⟨some bytes, u1, url, none, 0, 0⟩)], none⟩).cache u1
            { touchZipFileInformation s h now1 ⟨some bytes, u1, url, none, 0, 0⟩ with contents := some (buildZipContents u1 entries) }) } : ReaderState) with
          cache := (alistSet
            ({ scheduleEvictor s h now1 ⟨[(u1, touchZipFileInformation s h now1 ⟨some bytes, u1, url, none, 0, 0⟩)], none⟩ with
              cache := (alistSet (scheduleEvictor s h now1 ⟨[(u1, touchZipFileInformation s h now1 ⟨some bytes, u1, url, none, 0, 0⟩)], none⟩).cache u1
                { touchZipFileInformation s h now1 ⟨some bytes, u1, url, none, 0, 0⟩ with contents := some (buildZipContents u1 entries) }) } : ReaderState).cache
            u1
            (touchZipFileInformation s h now2
              ({ touchZipFileInformation s h now1 ⟨some bytes, u1, url, none, 0, 0⟩ with contents := some (buildZipContents u1 entries) }))) },
        readDirectoryContents (buildZipContents u1 entries)
          (pathInZipFile url)) := by
    unfold readDirectoryContentsImpl
    rw [hurl2]
    simp only []
    unfold readDirectoryContentsResolved
    simp only [touchZipFileInformation]
  refine ⟨{ touchZipFileInformation s h now1 ⟨some bytes, u1, url, none, 0, 0⟩ with contents := some (buildZipContents u1 entries) },
    touchZipFileInformation s h now2 ({ touchZipFileInformation s h now1 ⟨some bytes, u1, url, none, 0, 0⟩ with contents := some (buildZipContents u1 entries) }),
    ?_, ?_, rfl, rfl, rfl, rfl, rfl, ?_⟩
  · rw [h3]
    show alistGet ({ scheduleEvictor s h now1 ⟨[(u1, touchZipFileInformation s h now1 ⟨some bytes, u1, url, none, 0, 0⟩)], none⟩ with
      cache := (alistSet (scheduleEvictor s h now1 ⟨[(u1, touchZipFileInformation s h now1 ⟨some bytes, u1, url, none, 0, 0⟩)], none⟩).cache u1
        { touchZipFileInformation s h now1 ⟨some bytes, u1, url, none, 0, 0⟩ with contents := some (buildZipContents u1 entries) }) } : ReaderState).cache u1 = _
    rw [hc]
    simp [alistGet]
  · rw [h3]
    simp only []
    rw [h3x]
    show alistGet (scheduleEvictor s h now2
      { ({ scheduleEvictor s h now1 ⟨[(u1, touchZipFileInformation s h now1 ⟨some bytes, u1, url, none, 0, 0⟩)], none⟩ with
        cache := (alistSet (scheduleEvictor s h now1 ⟨[(u1, touchZipFileInformation s h now1 ⟨some bytes, u1, url, none, 0, 0⟩)], none⟩).cache u1
          { touchZipFileInformation s h now1 ⟨some bytes, u1, url, none, 0, 0⟩ with contents := some (buildZipContents u1 entries) }) } : ReaderState) with
        cache := (alistSet
          ({ scheduleEvictor s h now1 ⟨[(u1, touchZipFileInformation s h now1 ⟨some bytes, u1, url, none, 0, 0⟩)], none⟩ with
            cache := (alistSet (scheduleEvictor s h now1 ⟨[(u1, touchZipFileInformation s h now1 ⟨some bytes, u1, url, none, 0, 0⟩)], none⟩).cache u1
              { touchZipFileInformation s h now1 ⟨some bytes, u1, url, none, 0, 0⟩ with contents := some (buildZipContents u1 entries) }) } : ReaderState).cache
          u1
          (touchZipFileInformation s h now2
            ({ touchZipFileInformation s h now1 ⟨some bytes, u1, url, none, 0, 0⟩ with contents := some (buildZipContents u1 entries) }))) }).cache u1 = _
    rw [scheduleEvictor_cache]
    show alistGet (alistSet
      ({ scheduleEvictor s h now1 ⟨[(u1, touchZipFileInformation s h now1 ⟨some bytes, u1, url, none, 0, 0⟩)], none⟩ with
        cache := (alistSet (scheduleEvictor s h now1 ⟨[(u1, touchZipFileInformation s h now1 ⟨some bytes, u1, url, none, 0, 0⟩)], none⟩).cache u1
          { touchZipFileInformation s h now1 ⟨some bytes, u1, url, none, 0, 0⟩ with contents := some (buildZipContents u1 entries) }) } : ReaderState).cache
      u1
      (touchZipFileInformation s h now2
        ({ touchZipFileInformation s h now1 ⟨some bytes, u1, url, none, 0, 0⟩ with contents := some (buildZipContents u1 entries) }))) u1 = _
    exact alistGet_set_self _ _ _
  · rw [h3]
    simp only []
    rw [h3x]

/-- Witness for C5: a concrete double load of the same location keeps the
uuid, reader and contents, and returns the same listing. -/
theorem load_twice_idempotent_witness :
    ∃ info1 info2 : ZipFileInformation,
      alistGet (readDirectoryContentsImpl 10000 60000
        ⟨fun _ => Except.ok [7],
          fun _ => Except.ok [⟨"a.txt", false, some [7]⟩]⟩ 0 "u1"
        ⟨[], none⟩ ⟨"file:", "", "/z.zip"⟩).1.cache "u1" = some info1 ∧
      alistGet (readDirectoryContentsImpl 10000 60000
        ⟨fun _ => Except.ok [7],
          fun _ => Except.ok [⟨"a.txt", false, some [7]⟩]⟩ 1 "u2"
        (readDirectoryContentsImpl 10000 60000
          ⟨fun _ => Except.ok [7],
            fun _ => Except.ok [⟨"a.txt", false, some [7]⟩]⟩ 0 "u1"
          ⟨[], none⟩ ⟨"file:", "", "/z.zip"⟩).1
        ⟨"file:", "", "/z.zip"⟩).1.cache "u1" = some info2 ∧
      info1.uuid = "u1" ∧ info2.uuid = "u1" ∧
      info2.reader = info1.reader ∧
      info2.contents = info1.contents ∧
      info1.contents = some (buildZipContents "u1"
        [⟨"a.txt", false, some [7]⟩]) ∧
      (readDirectoryContentsImpl 10000 60000
        ⟨fun _ => Except.ok [7],
          fun _ => Except.ok [⟨"a.txt", false, some [7]⟩]⟩ 1 "u2"
        (readDirectoryContentsImpl 10000 60000
          ⟨fun _ => Except.ok [7],
            fun _ => Except.ok [⟨"a.txt", false, some [7]⟩]⟩ 0 "u1"
          ⟨[], none⟩ ⟨"file:", "", "/z.zip"⟩).1
        ⟨"file:", "", "/z.zip"⟩).2 =
        (readDirectoryContentsImpl 10000 60000
          ⟨fun _ => Except.ok [7],
            fun _ => Except.ok [⟨"a.txt", false, some [7]⟩]⟩ 0 "u1"
          ⟨[], none⟩ ⟨"file:", "", "/z.zip"⟩).2 :=
  load_twice_idempotent 10000 60000 0 1
    ⟨fun _ => Except.ok [7],
      fun _ => Except.ok [⟨"a.txt", false, some [7]⟩]⟩ "u1" "u2"
    ⟨"file:", "", "/z.zip"⟩ [7] [⟨"a.txt", false, some [7]⟩]
    rfl rfl (by decide)

end ZipToObject
